import Mathlib

/-!
Shallow embedding of the receipt-field extraction engine of the
messenger-weekly repository (src/ocr_fast.py, src/ocr_model.py,
src/server.py), with proofs of the specification claims.

Python strings are modelled as `String` / `List Char`.  Python's
`str.upper` / `str.lower` and the `unicodedata`-based accent stripping are
modelled by finite character tables covering the ASCII range and the full
Vietnamese alphabet, the alphabet this program operates on.  Python
regular expressions are modelled by a small greedy backtracking engine
with leftmost-match, priority-ordered semantics for the constructs the
source patterns use (literals, classes, alternation, option, bounded and
unbounded repetition); the two patterns using the word-boundary assertion
`\b` are embedded as dedicated scanners with the same greedy semantics.
-/

/-- Association lookup on a character table (first matching key wins). -/
def lookupC : List (Char × Char) → Char → Option Char
  | [], _ => none
  | (k, v) :: t, c => if c = k then some v else lookupC t c

/-- Apply a character table as a map, identity outside the table. -/
def tmap (t : List (Char × Char)) (c : Char) : Char :=
  match lookupC t c with
  | some v => v
  | none => c

/-- Uppercase-to-lowercase pairs of Python `str.lower`, restricted to the
ASCII letters and the Vietnamese alphabet (the program's character
domain). -/
def lowerPairs : List (Char × Char) :=
  [('A', 'a'), ('B', 'b'), ('C', 'c'), ('D', 'd'), ('E', 'e'), ('F', 'f'),
   ('G', 'g'), ('H', 'h'), ('I', 'i'), ('J', 'j'), ('K', 'k'), ('L', 'l'),
   ('M', 'm'), ('N', 'n'), ('O', 'o'), ('P', 'p'), ('Q', 'q'), ('R', 'r'),
   ('S', 's'), ('T', 't'), ('U', 'u'), ('V', 'v'), ('W', 'w'), ('X', 'x'),
   ('Y', 'y'), ('Z', 'z'), ('Đ', 'đ'),
   ('À', 'à'), ('Á', 'á'), ('Ả', 'ả'), ('Ã', 'ã'), ('Ạ', 'ạ'),
   ('Ă', 'ă'), ('Ằ', 'ằ'), ('Ắ', 'ắ'), ('Ẳ', 'ẳ'), ('Ẵ', 'ẵ'), ('Ặ', 'ặ'),
   ('Â', 'â'), ('Ầ', 'ầ'), ('Ấ', 'ấ'), ('Ẩ', 'ẩ'), ('Ẫ', 'ẫ'), ('Ậ', 'ậ'),
   ('È', 'è'), ('É', 'é'), ('Ẻ', 'ẻ'), ('Ẽ', 'ẽ'), ('Ẹ', 'ẹ'),
   ('Ê', 'ê'), ('Ề', 'ề'), ('Ế', 'ế'), ('Ể', 'ể'), ('Ễ', 'ễ'), ('Ệ', 'ệ'),
   ('Ì', 'ì'), ('Í', 'í'), ('Ỉ', 'ỉ'), ('Ĩ', 'ĩ'), ('Ị', 'ị'),
   ('Ò', 'ò'), ('Ó', 'ó'), ('Ỏ', 'ỏ'), ('Õ', 'õ'), ('Ọ', 'ọ'),
   ('Ô', 'ô'), ('Ồ', 'ồ'), ('Ố', 'ố'), ('Ổ', 'ổ'), ('Ỗ', 'ỗ'), ('Ộ', 'ộ'),
   ('Ơ', 'ơ'), ('Ờ', 'ờ'), ('Ớ', 'ớ'), ('Ở', 'ở'), ('Ỡ', 'ỡ'), ('Ợ', 'ợ'),
   ('Ù', 'ù'), ('Ú', 'ú'), ('Ủ', 'ủ'), ('Ũ', 'ũ'), ('Ụ', 'ụ'),
   ('Ư', 'ư'), ('Ừ', 'ừ'), ('Ứ', 'ứ'), ('Ử', 'ử'), ('Ữ', 'ữ'), ('Ự', 'ự'),
   ('Ỳ', 'ỳ'), ('Ý', 'ý'), ('Ỷ', 'ỷ'), ('Ỹ', 'ỹ'), ('Ỵ', 'ỵ')]

/-- Lowercase-to-uppercase pairs of Python `str.upper` on the same
domain. -/
def upperPairs : List (Char × Char) := lowerPairs.map (fun p => (p.2, p.1))

/-- Python `str.lower` on one character (ASCII plus Vietnamese). -/
def pyLowerChar (c : Char) : Char := tmap lowerPairs c

/-- Python `str.upper` on one character (ASCII plus Vietnamese). -/
def pyUpperChar (c : Char) : Char := tmap upperPairs c

/-- Accented-letter-to-base-letter pairs: the effect of NFD
decomposition, dropping combining marks, and NFC recomposition
(`server._strip_accents`) on the Vietnamese alphabet.  The letters đ/Đ
have no canonical decomposition and are deliberately absent. -/
def foldPairs : List (Char × Char) :=
  [('À', 'A'), ('Á', 'A'), ('Ả', 'A'), ('Ã', 'A'), ('Ạ', 'A'),
   ('Ă', 'A'), ('Ằ', 'A'), ('Ắ', 'A'), ('Ẳ', 'A'), ('Ẵ', 'A'), ('Ặ', 'A'),
   ('Â', 'A'), ('Ầ', 'A'), ('Ấ', 'A'), ('Ẩ', 'A'), ('Ẫ', 'A'), ('Ậ', 'A'),
   ('È', 'E'), ('É', 'E'), ('Ẻ', 'E'), ('Ẽ', 'E'), ('Ẹ', 'E'),
   ('Ê', 'E'), ('Ề', 'E'), ('Ế', 'E'), ('Ể', 'E'), ('Ễ', 'E'), ('Ệ', 'E'),
   ('Ì', 'I'), ('Í', 'I'), ('Ỉ', 'I'), ('Ĩ', 'I'), ('Ị', 'I'),
   ('Ò', 'O'), ('Ó', 'O'), ('Ỏ', 'O'), ('Õ', 'O'), ('Ọ', 'O'),
   ('Ô', 'O'), ('Ồ', 'O'), ('Ố', 'O'), ('Ổ', 'O'), ('Ỗ', 'O'), ('Ộ', 'O'),
   ('Ơ', 'O'), ('Ờ', 'O'), ('Ớ', 'O'), ('Ở', 'O'), ('Ỡ', 'O'), ('Ợ', 'O'),
   ('Ù', 'U'), ('Ú', 'U'), ('Ủ', 'U'), ('Ũ', 'U'), ('Ụ', 'U'),
   ('Ư', 'U'), ('Ừ', 'U'), ('Ứ', 'U'), ('Ử', 'U'), ('Ữ', 'U'), ('Ự', 'U'),
   ('Ỳ', 'Y'), ('Ý', 'Y'), ('Ỷ', 'Y'), ('Ỹ', 'Y'), ('Ỵ', 'Y'),
   ('à', 'a'), ('á', 'a'), ('ả', 'a'), ('ã', 'a'), ('ạ', 'a'),
   ('ă', 'a'), ('ằ', 'a'), ('ắ', 'a'), ('ẳ', 'a'), ('ẵ', 'a'), ('ặ', 'a'),
   ('â', 'a'), ('ầ', 'a'), ('ấ', 'a'), ('ẩ', 'a'), ('ẫ', 'a'), ('ậ', 'a'),
   ('è', 'e'), ('é', 'e'), ('ẻ', 'e'), ('ẽ', 'e'), ('ẹ', 'e'),
   ('ê', 'e'), ('ề', 'e'), ('ế', 'e'), ('ể', 'e'), ('ễ', 'e'), ('ệ', 'e'),
   ('ì', 'i'), ('í', 'i'), ('ỉ', 'i'), ('ĩ', 'i'), ('ị', 'i'),
   ('ò', 'o'), ('ó', 'o'), ('ỏ', 'o'), ('õ', 'o'), ('ọ', 'o'),
   ('ô', 'o'), ('ồ', 'o'), ('ố', 'o'), ('ổ', 'o'), ('ỗ', 'o'), ('ộ', 'o'),
   ('ơ', 'o'), ('ờ', 'o'), ('ớ', 'o'), ('ở', 'o'), ('ỡ', 'o'), ('ợ', 'o'),
   ('ù', 'u'), ('ú', 'u'), ('ủ', 'u'), ('ũ', 'u'), ('ụ', 'u'),
   ('ư', 'u'), ('ừ', 'u'), ('ứ', 'u'), ('ử', 'u'), ('ữ', 'u'), ('ự', 'u'),
   ('ỳ', 'y'), ('ý', 'y'), ('ỷ', 'y'), ('ỹ', 'y'), ('ỵ', 'y')]

/-- One character of `server._strip_accents`. -/
def foldChar (c : Char) : Char := tmap foldPairs c

/-- The uppercase accent-replacement table written out literally in
`ocr_model.parse_fields` (lines 59-73 of src/ocr_model.py); it is applied
after `str.upper` and intentionally omits several accented forms
(Ấ, Ẩ, Ẫ, Ậ, Ề, Ế, Ể, Ễ, Ệ, Ỗ, Ộ, Ồ, Ố, Ổ, Ờ, Ớ, Ở, Ỡ, Ợ, Ừ, Ứ, Ử, Ữ, Ự). -/
def noaccentPairs : List (Char × Char) :=
  [('Ầ', 'A'), ('Ằ', 'A'), ('Ắ', 'A'), ('Ẳ', 'A'), ('Ẵ', 'A'), ('Ặ', 'A'),
   ('À', 'A'), ('Á', 'A'), ('Ả', 'A'), ('Ã', 'A'), ('Ạ', 'A'),
   ('Â', 'A'), ('Ă', 'A'),
   ('È', 'E'), ('É', 'E'), ('Ẻ', 'E'), ('Ẽ', 'E'), ('Ẹ', 'E'), ('Ê', 'E'),
   ('Ì', 'I'), ('Í', 'I'), ('Ỉ', 'I'), ('Ĩ', 'I'), ('Ị', 'I'),
   ('Ò', 'O'), ('Ó', 'O'), ('Ỏ', 'O'), ('Õ', 'O'), ('Ọ', 'O'),
   ('Ô', 'O'), ('Ơ', 'O'),
   ('Ù', 'U'), ('Ú', 'U'), ('Ủ', 'U'), ('Ũ', 'U'), ('Ụ', 'U'), ('Ư', 'U'),
   ('Ỳ', 'Y'), ('Ý', 'Y'), ('Ỷ', 'Y'), ('Ỹ', 'Y'), ('Ỵ', 'Y'),
   ('Đ', 'D')]

/-- One character of `text_noaccent_upper` in `ocr_model.parse_fields`:
uppercase, then the literal replacement chain (each replacement is a
single-character substitution, so the chain is a pointwise map). -/
def noaccentUpperChar (c : Char) : Char := tmap noaccentPairs (pyUpperChar c)

/-- Python whitespace (`\s`, `str.strip`) on the program's character
domain: space, tab, newline, carriage return, vertical tab, form feed. -/
def isWs (c : Char) : Bool :=
  c = ' ' || c = '\t' || c = '\n' || c = '\r' ||
  c = Char.ofNat 11 || c = Char.ofNat 12

/-- Drop characters satisfying `p` from the right end. -/
def stripRight (p : Char → Bool) (l : List Char) : List Char :=
  (l.reverse.dropWhile p).reverse

/-- Drop characters satisfying `p` from both ends (Python `str.strip`). -/
def stripBothL (p : Char → Bool) (l : List Char) : List Char :=
  stripRight p (l.dropWhile p)

/-- Python `s.strip()` (no argument: whitespace). -/
def pyStrip (s : String) : String := String.mk (stripBothL isWs s.data)

/-- Python `s.strip(cs)` with an explicit character set. -/
def pyStripChars (cs : List Char) (s : String) : String :=
  String.mk (stripBothL (fun c => cs.contains c) s.data)

/-- Boolean prefix test on character lists. -/
def isPrefixOfC : List Char → List Char → Bool
  | [], _ => true
  | _ :: _, [] => false
  | a :: as, b :: bs => a == b && isPrefixOfC as bs

/-- Worker for `replaceStr`, structurally recursive on a fuel bound so
that it evaluates by kernel reduction; one unit of fuel is spent per
character position, so `l.length` fuel always completes the scan (when
fuel runs out the rest of the list is returned unchanged). -/
def replaceStrF (pat rep : List Char) : Nat → List Char → List Char
  | _, [] => []
  | 0, l => l
  | fuel + 1, c :: rest =>
    if pat ≠ [] ∧ isPrefixOfC pat (c :: rest) then
      rep ++ replaceStrF pat rep fuel (List.drop (pat.length - 1) rest)
    else
      c :: replaceStrF pat rep fuel rest

/-- Python `str.replace(pat, rep)`: replace every non-overlapping
occurrence of `pat`, scanning left to right.  (For the empty pattern,
which the source never passes, this is the identity.) -/
def replaceStr (pat rep l : List Char) : List Char :=
  replaceStrF pat rep l.length l

/-- Case-insensitive prefix test (used by `re.sub(key, "", s, flags=I)`
with a literal key). -/
def isPrefixOfCI : List Char → List Char → Bool
  | [], _ => true
  | _ :: _, [] => false
  | a :: as, b :: bs => pyLowerChar a == pyLowerChar b && isPrefixOfCI as bs

/-- Worker for `replaceStrCI`, fuelled like `replaceStrF`. -/
def replaceStrCIF (pat rep : List Char) : Nat → List Char → List Char
  | _, [] => []
  | 0, l => l
  | fuel + 1, c :: rest =>
    if pat ≠ [] ∧ isPrefixOfCI pat (c :: rest) then
      rep ++ replaceStrCIF pat rep fuel (List.drop (pat.length - 1) rest)
    else
      c :: replaceStrCIF pat rep fuel rest

/-- Case-insensitive replace-all with a literal pattern
(`re.sub(key, rep, s, flags=re.IGNORECASE)`). -/
def replaceStrCI (pat rep l : List Char) : List Char :=
  replaceStrCIF pat rep l.length l

/-- Python substring test (`pat in s`) on character lists. -/
def isInfixL (pat : List Char) : List Char → Bool
  | [] => isPrefixOfC pat []
  | c :: t => isPrefixOfC pat (c :: t) || isInfixL pat t

/-- Python substring test on strings. -/
def isInfixS (pat s : String) : Bool := isInfixL pat.data s.data

/-- The digit characters of a character list, in order. -/
def digitsOf (l : List Char) : List Char := l.filter Char.isDigit

/-- Numeric value of a decimal digit character. -/
def digitVal (c : Char) : Nat := c.toNat - 48

/-- Value of a decimal digit string (most significant digit first),
as computed by Python `int` on a digit-only string. -/
def natOfDigits (l : List Char) : Nat := l.foldl (fun a c => 10 * a + digitVal c) 0

/-- Embedding of `ocr_fast._vn_amount_to_int`: uppercase, strip the
currency tokens VND/VNĐ/Đ/D, strip the separators `.`/`,`/space, drop all
remaining non-digits, and parse the remaining digits; `None` when the
input is falsy or no digit remains.  (`int` on a non-empty digit string
never raises, so the `except` branch is unreachable.) -/
def _vn_amount_to_int (s : String) : Option Int :=
  if s = "" then none
  else
    let x0 := s.data.map pyUpperChar
    let x1 := replaceStr (("VND").data) [] x0
    let x2 := replaceStr (("VNĐ").data) [] x1
    let x3 := replaceStr (("Đ").data) [] x2
    let x4 := replaceStr (("D").data) [] x3
    let x5 := replaceStr ['.'] [] x4
    let x6 := replaceStr [','] [] x5
    let x7 := replaceStr [' '] [] x6
    let x8 := x7.filter Char.isDigit
    if x8 = [] then none else some (Int.ofNat (natOfDigits x8))

/-- Embedding of `ocr_model._vn_to_int_amount`: as above but with a
leading `strip()` and without the explicit space replacement (spaces are
removed by the final non-digit strip anyway). -/
def _vn_to_int_amount (s : String) : Option Int :=
  if s = "" then none
  else
    let x0 := (stripBothL isWs s.data).map pyUpperChar
    let x1 := replaceStr (("VND").data) [] x0
    let x2 := replaceStr (("VNĐ").data) [] x1
    let x3 := replaceStr (("Đ").data) [] x2
    let x4 := replaceStr (("D").data) [] x3
    let x5 := replaceStr ['.'] [] x4
    let x6 := replaceStr [','] [] x5
    let x7 := x6.filter Char.isDigit
    if x7 = [] then none else some (Int.ofNat (natOfDigits x7))

/-! ### The digit subsequence is invariant under the normalisation chain -/

theorem lookupC_mem {t : List (Char × Char)} {c v : Char}
    (h : lookupC t c = some v) : (c, v) ∈ t := by
  induction t with
  | nil => simp [lookupC] at h
  | cons p t ih =>
    rw [show p = (p.1, p.2) from rfl] at h ⊢
    simp only [lookupC] at h
    by_cases hc : c = p.1
    · rw [if_pos hc] at h
      subst hc
      simp_all
    · rw [if_neg hc] at h
      exact List.mem_cons_of_mem _ (ih h)

theorem tmap_digit {t : List (Char × Char)}
    (ht : ∀ p ∈ t, p.1.isDigit = false ∧ p.2.isDigit = false) (c : Char) :
    (tmap t c).isDigit = c.isDigit ∧ (c.isDigit = true → tmap t c = c) := by
  unfold tmap
  cases h : lookupC t c with
  | none => exact ⟨rfl, fun _ => rfl⟩
  | some v =>
    have hm := lookupC_mem h
    have := ht _ hm
    constructor
    · simp [this.1, this.2]
    · intro hd
      rw [this.1] at hd
      exact absurd hd (by simp)

theorem filter_isDigit_map {f : Char → Char}
    (hf : ∀ c, (f c).isDigit = c.isDigit ∧ (c.isDigit = true → f c = c))
    (l : List Char) : (l.map f).filter Char.isDigit = l.filter Char.isDigit := by
  induction l with
  | nil => rfl
  | cons c t ih =>
    simp only [List.map_cons, List.filter_cons]
    rw [(hf c).1]
    cases hd : c.isDigit with
    | false => exact ih
    | true => rw [(hf c).2 hd, ih]

theorem isPrefixOfC_append {p l : List Char} (h : isPrefixOfC p l = true) :
    p ++ List.drop p.length l = l := by
  induction p generalizing l with
  | nil => simp
  | cons a as ih =>
    cases l with
    | nil => simp [isPrefixOfC] at h
    | cons b bs =>
      simp only [isPrefixOfC, Bool.and_eq_true, beq_iff_eq] at h
      obtain ⟨rfl, h2⟩ := h
      simp only [List.cons_append, List.length_cons, List.drop_succ_cons]
      rw [ih h2]

theorem filter_isDigit_replaceStrF {pat : List Char}
    (hd : ∀ c ∈ pat, c.isDigit = false) :
    ∀ fuel l,
      (replaceStrF pat [] fuel l).filter Char.isDigit = l.filter Char.isDigit := by
  intro fuel
  induction fuel with
  | zero =>
    intro l
    cases l with
    | nil => rfl
    | cons c rest => rfl
  | succ n ih =>
    intro l
    cases l with
    | nil => rfl
    | cons c rest =>
      rw [replaceStrF]
      by_cases h : pat ≠ [] ∧ isPrefixOfC pat (c :: rest) = true
      · rw [if_pos h]
        have hpre := isPrefixOfC_append h.2
        have hdrop : List.drop (pat.length - 1) rest = List.drop pat.length (c :: rest) := by
          cases pat with
          | nil => exact absurd rfl h.1
          | cons _ _ => simp
        rw [List.nil_append, ih _]
        conv_rhs => rw [← hpre]
        rw [List.filter_append]
        have hfilpat : pat.filter Char.isDigit = [] := by
          rw [List.filter_eq_nil_iff]
          intro a ha
          simp [hd a ha]
        rw [hfilpat, List.nil_append, hdrop]
      · rw [if_neg h]
        simp only [List.filter_cons]
        cases hc : c.isDigit with
        | false => exact ih _
        | true => rw [ih _]

theorem filter_isDigit_replaceStr {pat : List Char}
    (hd : ∀ c ∈ pat, c.isDigit = false) (l : List Char) :
    (replaceStr pat [] l).filter Char.isDigit = l.filter Char.isDigit :=
  filter_isDigit_replaceStrF hd _ l

theorem filter_isDigit_dropWhile {p : Char → Bool}
    (hp : ∀ c, p c = true → c.isDigit = false) (l : List Char) :
    (l.dropWhile p).filter Char.isDigit = l.filter Char.isDigit := by
  conv_rhs => rw [← List.takeWhile_append_dropWhile p l]
  rw [List.filter_append]
  have : (l.takeWhile p).filter Char.isDigit = [] := by
    rw [List.filter_eq_nil_iff]
    intro a ha
    rw [hp a (List.mem_takeWhile_imp ha)]
    simp
  rw [this, List.nil_append]

theorem isWs_not_digit (c : Char) (h : isWs c = true) : c.isDigit = false := by
  simp only [isWs, Bool.or_eq_true, decide_eq_true_eq] at h
  rcases h with ((((h | h) | h) | h) | h) | h <;> subst h <;> decide

theorem filter_isDigit_stripBoth (l : List Char) :
    (stripBothL isWs l).filter Char.isDigit = l.filter Char.isDigit := by
  unfold stripBothL stripRight
  rw [List.filter_reverse, filter_isDigit_dropWhile isWs_not_digit,
    List.filter_reverse, List.reverse_reverse,
    filter_isDigit_dropWhile isWs_not_digit]

theorem pyUpperChar_digit (c : Char) :
    (pyUpperChar c).isDigit = c.isDigit ∧ (c.isDigit = true → pyUpperChar c = c) :=
  tmap_digit (by decide) c

/-- Canonical form of `ocr_fast._vn_amount_to_int`: the result is `None`
exactly when the input has no digit character, and otherwise the decimal
value of the digit subsequence. -/
theorem _vn_amount_to_int_eq (s : String) :
    _vn_amount_to_int s =
      (if digitsOf s.data = [] then none
       else some (Int.ofNat (natOfDigits (digitsOf s.data)))) := by
  unfold _vn_amount_to_int
  by_cases hs : s = ""
  · subst hs
    rfl
  · rw [if_neg hs]
    simp only []
    have key : (replaceStr [' '] []
        (replaceStr [','] []
          (replaceStr ['.'] []
            (replaceStr (("D").data) []
              (replaceStr (("Đ").data) []
                (replaceStr (("VNĐ").data) []
                  (replaceStr (("VND").data) []
                    (s.data.map pyUpperChar)))))))).filter Char.isDigit
        = s.data.filter Char.isDigit := by
      rw [filter_isDigit_replaceStr (by decide) _,
        filter_isDigit_replaceStr (by decide) _,
        filter_isDigit_replaceStr (by decide) _,
        filter_isDigit_replaceStr (by decide) _,
        filter_isDigit_replaceStr (by decide) _,
        filter_isDigit_replaceStr (by decide) _,
        filter_isDigit_replaceStr (by decide) _,
        filter_isDigit_map pyUpperChar_digit]
    rw [key]
    rfl

/-- Canonical form of `ocr_model._vn_to_int_amount`: identical to the
fast variant. -/
theorem _vn_to_int_amount_eq (s : String) :
    _vn_to_int_amount s =
      (if digitsOf s.data = [] then none
       else some (Int.ofNat (natOfDigits (digitsOf s.data)))) := by
  unfold _vn_to_int_amount
  by_cases hs : s = ""
  · subst hs
    rfl
  · rw [if_neg hs]
    simp only []
    have key : (replaceStr [','] []
        (replaceStr ['.'] []
          (replaceStr (("D").data) []
            (replaceStr (("Đ").data) []
              (replaceStr (("VNĐ").data) []
                (replaceStr (("VND").data) []
                  ((stripBothL isWs s.data).map pyUpperChar))))))).filter Char.isDigit
        = s.data.filter Char.isDigit := by
      rw [filter_isDigit_replaceStr (by decide) _,
        filter_isDigit_replaceStr (by decide) _,
        filter_isDigit_replaceStr (by decide) _,
        filter_isDigit_replaceStr (by decide) _,
        filter_isDigit_replaceStr (by decide) _,
        filter_isDigit_replaceStr (by decide) _,
        filter_isDigit_map pyUpperChar_digit, filter_isDigit_stripBoth]
    rw [key]
    rfl

/-- The two amount normalisers agree on every input. -/
theorem vn_amount_agree (s : String) : _vn_amount_to_int s = _vn_to_int_amount s := by
  rw [_vn_amount_to_int_eq, _vn_to_int_amount_eq]

/-! ### C2: amount normalisation -/

/-- C2 (counterexample): the claim says a '-'-prefixed amount string
yields a negative (signed) integer, but both normalisers strip the sign
together with every other non-digit character: on "-123" the result is
the positive 123, not -123. -/
theorem vn_amount_sign_cex :
    _vn_amount_to_int ("-123") = some (123) ∧
    _vn_amount_to_int ("-123") ≠ some (-123) := by
  constructor
  · decide
  · decide

/-- C2 (amended): amount normalisation returns `None` exactly when no
digit character survives, and otherwise the non-negative integer denoted
by the surviving digits, with any sign discarded; both normalisers agree
on every input. -/
theorem vn_amount_digits_law (s : String) :
    (_vn_amount_to_int s = none ↔ digitsOf s.data = []) ∧
    _vn_amount_to_int s = _vn_to_int_amount s ∧
    (∀ v : Int, _vn_amount_to_int s = some v →
      0 ≤ v ∧ v = Int.ofNat (natOfDigits (digitsOf s.data))) := by
  refine ⟨?_, vn_amount_agree s, ?_⟩
  · rw [_vn_amount_to_int_eq]
    by_cases h : digitsOf s.data = []
    · simp [h]
    · simp [h]
  · intro v hv
    rw [_vn_amount_to_int_eq] at hv
    by_cases h : digitsOf s.data = []
    · rw [if_pos h] at hv
      exact absurd hv (by simp)
    · rw [if_neg h] at hv
      have : Int.ofNat (natOfDigits (digitsOf s.data)) = v := by
        injection hv
      constructor
      · rw [← this]
        exact Int.ofNat_nonneg _
      · exact this.symm

/-- Witness for `vn_amount_digits_law` at the concrete input "-123". -/
theorem vn_amount_digits_law_witness :
    0 ≤ (123 : Int) ∧ (123 : Int) = Int.ofNat (natOfDigits (digitsOf ("-123").data)) :=
  (vn_amount_digits_law ("-123")).2.2 123 (by decide)

/-! ### A small regex engine (greedy, backtracking, leftmost match)

Continuation-passing matcher: `matchO fuel r s k` tries to match `r` at
the front of `s` and calls `k` on the remaining suffix, exploring
alternatives in Python's priority order (greedy repetition, left-first
alternation).  It is structurally recursive on `fuel` so that it
evaluates by kernel reduction; fuel only bounds the recursion depth and
is chosen large enough (`reFuel`) for every search performed here. -/

inductive RE where
  | eps : RE
  | cls : (Char → Bool) → RE
  | seq : RE → RE → RE
  | alt : RE → RE → RE
  | opt : RE → RE
  | star : RE → RE

def matchO {α : Type} : Nat → RE → List Char → (List Char → Option α) → Option α
  | 0, _, _, _ => none
  | fuel + 1, r, s, k =>
    match r with
    | .eps => k s
    | .cls f =>
      match s with
      | [] => none
      | c :: rest => if f c then k rest else none
    | .seq a b => matchO fuel a s (fun s1 => matchO fuel b s1 k)
    | .alt a b => (matchO fuel a s k).orElse (fun _ => matchO fuel b s k)
    | .opt a => (matchO fuel a s k).orElse (fun _ => k s)
    | .star a =>
      (matchO fuel a s (fun s1 =>
        if s1.length < s.length then matchO fuel (.star a) s1 k else none)).orElse
        (fun _ => k s)

def sizeRE : RE → Nat
  | .eps => 1
  | .cls _ => 1
  | .seq a b => sizeRE a + sizeRE b + 1
  | .alt a b => sizeRE a + sizeRE b + 1
  | .opt a => sizeRE a + 1
  | .star a => sizeRE a + 1

/-- A Python pattern split as prefix, capturing group 1, and suffix, so
that the matcher can report both group 0 and group 1. -/
structure Pat where
  pre : RE
  cap : RE
  post : RE

def reFuel (r : RE) (s : List Char) : Nat := (sizeRE r + 2) * (s.length + 2)

/-- Try the pattern anchored at the front of `s`; on success return
(group 0, group 1) as character lists. -/
def matchAt (p : Pat) (s : List Char) : Option (List Char × List Char) :=
  matchO (reFuel p.pre s) p.pre s (fun s1 =>
    matchO (reFuel p.cap s) p.cap s1 (fun s2 =>
      matchO (reFuel p.post s) p.post s2 (fun s3 =>
        some (List.take (s.length - s3.length) s,
          List.take (s1.length - s2.length) s1))))

/-- `re.search`: try every start position left to right (leftmost match
wins), as Python does. -/
def searchP (p : Pat) : List Char → Option (List Char × List Char)
  | [] => matchAt p []
  | c :: t =>
    match matchAt p (c :: t) with
    | some r => some r
    | none => searchP p t

/-! Pattern building blocks. -/

def chE (c : Char) : RE := RE.cls (fun d => d == c)

/-- A literal character under `re.IGNORECASE`. -/
def chI (c : Char) : RE := RE.cls (fun d => pyLowerChar d == pyLowerChar c)

def litE (s : String) : RE := s.data.foldr (fun c r => RE.seq (chE c) r) RE.eps

def litI (s : String) : RE := s.data.foldr (fun c r => RE.seq (chI c) r) RE.eps

def alts : List RE → RE
  | [] => RE.cls (fun _ => false)
  | [r] => r
  | r :: rs => RE.alt r (alts rs)

def seqL (rs : List RE) : RE := rs.foldr RE.seq RE.eps

def rePlus (r : RE) : RE := RE.seq r (RE.star r)

def reN (r : RE) : Nat → RE
  | 0 => RE.eps
  | n + 1 => RE.seq r (reN r n)

/-- Greedy `{0,n}`. -/
def reUpTo (r : RE) : Nat → RE
  | 0 => RE.eps
  | n + 1 => RE.opt (RE.seq r (reUpTo r n))

/-- Greedy `{m,n}`. -/
def reRange (r : RE) (m n : Nat) : RE := RE.seq (reN r m) (reUpTo r (n - m))

/-- Greedy `{m,}`. -/
def reAtLeast (r : RE) (m : Nat) : RE := RE.seq (reN r m) (RE.star r)

/-! Character classes used by the source patterns. -/

def amtCls (c : Char) : Bool := c.isDigit || c == '.' || c == ',' || c == ' '

def colonWs (c : Char) : Bool := c == ':' || isWs c

def colonWsDash (c : Char) : Bool := c == ':' || isWs c || c == '-'

def commaDash (c : Char) : Bool := c == ',' || c == '-'

def slashDash (c : Char) : Bool := c == '/' || c == '-'

/-- The class `[:h]` under `re.IGNORECASE`. -/
def colonH (c : Char) : Bool := c == ':' || pyLowerChar c == 'h'

def digitC : RE := RE.cls Char.isDigit

def reWsStar : RE := RE.star (RE.cls isWs)

/-- The currency-suffix alternation `(?:VND|VNĐ|Đ|D)` (ignore-case). -/
def vndAlt : RE := alts [litI ("VND"), litI ("VNĐ"), litI ("Đ"), litI ("D")]

/-- Embedding of `ocr_fast.AMOUNT_PATS` (searched with
`re.IGNORECASE | re.MULTILINE`; no pattern uses anchors, so MULTILINE is
inert). -/
def AMOUNT_PATS : List Pat :=
  [⟨seqL [litI ("Số"), reWsStar, litI ("tiền"), RE.star (RE.cls colonWs)],
    seqL [rePlus (RE.cls amtCls), RE.opt vndAlt], RE.eps⟩,
   ⟨seqL [litI ("Amount"), RE.star (RE.cls colonWs)],
    seqL [rePlus (RE.cls amtCls), RE.opt vndAlt], RE.eps⟩,
   ⟨RE.eps,
    seqL [digitC, reAtLeast (RE.cls amtCls) 3, RE.opt (RE.cls isWs), vndAlt],
    RE.eps⟩,
   ⟨RE.eps, seqL [digitC, reAtLeast (RE.cls amtCls) 3],
    seqL [reWsStar, vndAlt]⟩,
   ⟨RE.eps, seqL [digitC, reAtLeast (RE.cls amtCls) 3],
    seqL [reWsStar, chI 'đ']⟩]

/-- The date-label alternation of `ocr_fast.DATE_PATS`. -/
def dateLbl : RE :=
  alts [seqL [litI ("Thời"), reWsStar, litI ("gian")],
    seqL [litI ("Ngày"), reWsStar, litI ("giao"), reWsStar, litI ("dịch")],
    seqL [litI ("Thời"), reWsStar, litI ("điểm")],
    litI ("Date"), litI ("Time")]

/-- `[0-9]{1,2}[:h][0-9]{2}(?::[0-9]{2})?`. -/
def timeRe : RE :=
  seqL [reRange digitC 1 2, RE.cls colonH, reN digitC 2,
    RE.opt (seqL [chE ':', reN digitC 2])]

/-- `[0-9]{1,2}[\/\-][0-9]{1,2}[\/\-][0-9]{2,4}`. -/
def dateRe : RE :=
  seqL [reRange digitC 1 2, RE.cls slashDash, reRange digitC 1 2,
    RE.cls slashDash, reRange digitC 2 4]

/-- Embedding of `ocr_fast.DATE_PATS`. -/
def DATE_PATS : List Pat :=
  [⟨seqL [dateLbl, RE.star (RE.cls colonWsDash)],
    seqL [timeRe, reWsStar, RE.opt (chE '-'), reWsStar, dateRe], RE.eps⟩,
   ⟨seqL [dateLbl, RE.star (RE.cls colonWsDash)],
    seqL [dateRe, rePlus (RE.cls isWs), timeRe], RE.eps⟩,
   ⟨RE.eps, seqL [timeRe, reWsStar, RE.opt (RE.cls commaDash), reWsStar, dateRe],
    RE.eps⟩,
   ⟨RE.eps, seqL [dateRe, rePlus (RE.cls isWs), timeRe], RE.eps⟩]

/-- Embedding of `ocr_fast._find_first`: first pattern with a match wins;
the result is `(m.group(1) or m.group(0)).strip()`. -/
def _find_first (pats : List Pat) (text : String) : Option String :=
  match pats with
  | [] => none
  | p :: ps =>
    match searchP p text.data with
    | some (g0, g1) => some (pyStrip (String.mk (if g1 = [] then g0 else g1)))
    | none => _find_first ps text

/-- Embedding of `ocr_fast.VN_PHONE`:
`(\+?84|0)\s?\d{2}\s?\d{3}\s?\d{4,5}` (case-sensitive). -/
def vnPhonePat : Pat :=
  ⟨RE.eps,
   seqL [RE.alt (seqL [RE.opt (chE '+'), litE ("84")]) (chE '0'),
     RE.opt (RE.cls isWs), reN digitC 2, RE.opt (RE.cls isWs), reN digitC 3,
     RE.opt (RE.cls isWs), reRange digitC 4 5],
   RE.eps⟩

/-- `[A-Za-z0-9\-\.]` (case-sensitive). -/
def txnChar (c : Char) : Bool :=
  (65 ≤ c.toNat && c.toNat ≤ 90) || (97 ≤ c.toNat && c.toNat ≤ 122) ||
  c.isDigit || c == '-' || c == '.'

/-- `[A-Za-z0-9]` (case-sensitive). -/
def alnumA (c : Char) : Bool :=
  (65 ≤ c.toNat && c.toNat ≤ 90) || (97 ≤ c.toNat && c.toNat ≤ 122) || c.isDigit

/-- `(?:[:：]\s*)([A-Za-z0-9\-\.]{6,})` (no flags). -/
def txnPat1 : Pat :=
  ⟨seqL [RE.cls (fun c => c == ':' || c == '：'), reWsStar],
   reAtLeast (RE.cls txnChar) 6, RE.eps⟩

/-- `([A-Za-z0-9][A-Za-z0-9\-\.]{5,})` (no flags). -/
def txnPat2 : Pat :=
  ⟨RE.eps, seqL [RE.cls alnumA, reAtLeast (RE.cls txnChar) 5], RE.eps⟩

def RECIPIENT_KEYS : List String :=
  ["Đến", "Tới", "Chuyển tới", "Chuyển đến", "Người nhận", "Recipient", "To"]

def TXN_KEYS : List String :=
  ["Mã giao dịch", "Mã GD", "Transaction ID", "Mã tham chiếu", "Ref"]

def pyLowerStr (s : String) : String := String.mk (s.data.map pyLowerChar)

/-- One lookahead line of the recipient loop (`for j in range(1, 3)`
body, for a non-empty stripped candidate `cand`; `la` is the line after
it, used when the candidate is a bare phone number). -/
def th2Step (cand : String) (la : Option String) :
    Option String × Option String → Option String × Option String :=
  fun st =>
    match searchP vnPhonePat cand.data with
    | some (g0, _) =>
      if st.2 = none then
        let phS := String.mk (replaceStr [' '] [] g0)
        let candWo := pyStripChars ((" ,.-–—").data)
          (String.mk (replaceStr g0 [] cand.data))
        if candWo ≠ "" then (some candWo, some phS)
        else
          match la, st.1 with
          | some l2, none =>
            let cand2 := pyStrip l2
            if cand2 ≠ "" then (some cand2, some phS) else (st.1, some phS)
          | _, _ => (st.1, some phS)
      else
        if st.1 = none then (some cand, st.2) else st
    | none =>
      if st.1 = none then (some cand, st.2) else st

/-- The two lookahead iterations (`j = 1, 2`) with Python's `continue`
on empty lines and `break` once a name is found. -/
def th2 (rest : List String) (st : Option String × Option String) :
    Option String × Option String :=
  let st1 :=
    match rest.head? with
    | none => st
    | some l1 =>
      let cand := pyStrip l1
      if cand = "" then st else th2Step cand (rest.get? 1) st
  if st1.1 ≠ none then st1
  else
    match rest.get? 1 with
    | none => st1
    | some l2 =>
      let cand := pyStrip l2
      if cand = "" then st1 else th2Step cand (rest.get? 2) st1

/-- Processing of one recipient-keyword line of `_momo_parse`: the
same-line case (strip the keywords, split off a phone number) followed,
when no usable name was found, by the lookahead case. -/
def recipientLine (raw : String) (rest : List String) :
    Option String × Option String :=
  let afterAll := RECIPIENT_KEYS.foldl
    (fun acc k => String.mk (replaceStrCI k.data [] acc.data)) raw
  let after := pyStripChars ((" :|-–—").data) afterAll
  let st1 : Option String × Option String :=
    if 2 ≤ after.length then
      match searchP vnPhonePat after.data with
      | some (g0, _) =>
        let ph := String.mk (replaceStr [' '] [] g0)
        let after2 := pyStripChars ((" ,.-–—").data)
          (String.mk (replaceStr g0 [] after.data))
        (if after2 ≠ "" then some after2 else none, some ph)
      | none => (some after, none)
    else (none, none)
  if (match st1.1 with | none => true | some n => n.length < 2) then th2 rest st1
  else st1

/-- The recipient loop of `_momo_parse`: scan for a line containing a
recipient keyword; `break` as soon as a name or phone was found,
otherwise keep scanning. -/
def recipientScan : List String → Option String × Option String
  | [] => (none, none)
  | ln :: rest =>
    let raw := pyStrip ln
    if raw = "" then recipientScan rest
    else
      let low := pyLowerStr raw
      if RECIPIENT_KEYS.any (fun k => isInfixS (pyLowerStr k) low) then
        match recipientLine raw rest with
        | (none, none) => recipientScan rest
        | st => st
      else recipientScan rest

/-- The transaction-id loop of `_momo_parse`; the accumulator carries the
current value of the Python variable txn_id (which an empty strip result
can set to the falsy "" without breaking the loop). -/
def txnScan : List String → Option String → Option String
  | [], acc => acc
  | ln :: rest, acc =>
    let low := pyLowerStr ln
    if TXN_KEYS.any (fun k => isInfixS (pyLowerStr k) low) then
      let t :=
        match searchP txnPat1 ln.data with
        | some (_, g1) => some (pyStripChars ((".- ").data) (String.mk g1))
        | none =>
          match searchP txnPat2 ln.data with
          | some (_, g1) => some (pyStripChars ((".- ").data) (String.mk g1))
          | none => none
      match t with
      | some v => if v ≠ "" then some v else txnScan rest (some v)
      | none => txnScan rest acc
    else txnScan rest acc

/-- The record assembled by `ocr_fast._momo_parse`. -/
structure MomoRecord where
  recipient_name : Option String
  recipient_phone : Option String
  datetime_text : Option String
  txn_id : Option String
  amount_text : Option String
  amount_val : Option Int
deriving DecidableEq

/-- Embedding of `ocr_fast._momo_parse`. -/
def _momo_parse (lines : List String) (full : String) : MomoRecord :=
  let dt := _find_first DATE_PATS full
  let rp := recipientScan lines
  let tx := txnScan lines none
  let amt := _find_first AMOUNT_PATS full
  let av : Option Int :=
    match amt with
    | none => none
    | some t => if t = "" then none else _vn_amount_to_int t
  ⟨rp.1, rp.2, dt, tx, amt, av⟩

/-- `_momo_parse` as invoked by `fast_extract_amount_date`: the full text
is the newline join of the first 250 lines. -/
def momoExtract (lines : List String) : MomoRecord :=
  _momo_parse lines (String.intercalate ("\n") (lines.take 250))

/-! ### server.py: strict dd/mm/yyyy extraction -/

/-- Python word character (`\w`); beyond ASCII every character of the
program's alphabet ≥ U+00C0 is a letter. -/
def isWordCh (c : Char) : Bool := c.isAlphanum || c == '_' || 192 ≤ c.toNat

/-- Exactly `k` digit characters from the front. -/
def takeDigits : Nat → List Char → Option (List Char × List Char)
  | 0, s => some ([], s)
  | _ + 1, [] => none
  | k + 1, c :: rest =>
    if c.isDigit then
      match takeDigits k rest with
      | some (ds, r) => some (c :: ds, r)
      | none => none
    else none

/-- `(\d{4})\b`: the year group followed by a word boundary. -/
def slashYear (r : List Char) : Option (List Char × List Char) :=
  match takeDigits 4 r with
  | some (ys, rem) =>
    match rem with
    | [] => some (ys, rem)
    | c :: _ => if isWordCh c then none else some (ys, rem)
  | none => none

/-- `(\d{1,2})/(\d{4})\b` with greedy backtracking over the month
width. -/
def slashMonthYear (r : List Char) : Option (List Char × List Char × List Char) :=
  let try2 :=
    match takeDigits 2 r with
    | some (ms, r2) =>
      match r2 with
      | '/' :: r3 =>
        match slashYear r3 with
        | some (ys, rem) => some (ms, ys, rem)
        | none => none
      | _ => none
    | none => none
  match try2 with
  | some x => some x
  | none =>
    match takeDigits 1 r with
    | some (ms, r2) =>
      match r2 with
      | '/' :: r3 =>
        match slashYear r3 with
        | some (ys, rem) => some (ms, ys, rem)
        | none => none
      | _ => none
    | none => none

/-- `SLASH_DATE_RE` anchored at the front of `s` (the leading word
boundary is checked by the caller): group 0 plus the month and year
values. -/
def slashAt (s : List Char) : Option (String × Nat × Nat) :=
  let tryD := fun (dl : Nat) =>
    match takeDigits dl s with
    | some (ds, r1) =>
      match r1 with
      | '/' :: r2 =>
        match slashMonthYear r2 with
        | some (ms, ys, _) =>
          some (String.mk (ds ++ '/' :: (ms ++ '/' :: ys)),
            natOfDigits ms, natOfDigits ys)
        | none => none
      | _ => none
    | none => none
  match tryD 2 with
  | some x => some x
  | none => tryD 1

/-- `re.search` for `SLASH_DATE_RE = \b(\d{1,2})/(\d{1,2})/(\d{4})\b`:
leftmost start position whose previous character is not a word
character. -/
def slashSearch : Option Char → List Char → Option (String × Nat × Nat)
  | _, [] => none
  | prev, c :: t =>
    let okStart := match prev with | none => true | some p => !(isWordCh p)
    match (if okStart then slashAt (c :: t) else none) with
    | some x => some x
    | none => slashSearch (some c) t

/-- Embedding of `server.extract_strict_slash_date_from_text`: first
`SLASH_DATE_RE` match of the text, accepted only when month ∈ [1,12] and
year ∈ [2000,2100]; the result bundles `m.group(0)` with `(month, year)`. -/
def extract_strict_slash_date_from_text (text : String) :
    Option (String × Nat × Nat) :=
  if text = "" then none
  else
    match slashSearch none text.data with
    | none => none
    | some (tok, m, y) =>
      if 1 ≤ m ∧ m ≤ 12 ∧ 2000 ≤ y ∧ y ≤ 2100 then some (tok, m, y) else none

/-- Any accepted strict date satisfies both the month and the year
window (shared workhorse for the month and year claims). -/
theorem strict_slash_ranges {text tok : String} {m y : Nat}
    (hv : extract_strict_slash_date_from_text text = some (tok, m, y)) :
    1 ≤ m ∧ m ≤ 12 ∧ 2000 ≤ y ∧ y ≤ 2100 := by
  unfold extract_strict_slash_date_from_text at hv
  by_cases ht : text = ""
  · rw [if_pos ht] at hv
    exact absurd hv (by simp)
  · rw [if_neg ht] at hv
    cases hs : slashSearch none text.data with
    | none =>
      rw [hs] at hv
      exact absurd hv (by simp)
    | some r =>
      obtain ⟨tok', m', y'⟩ := r
      rw [hs] at hv
      by_cases hc : 1 ≤ m' ∧ m' ≤ 12 ∧ 2000 ≤ y' ∧ y' ≤ 2100
      · simp only [if_pos hc] at hv
        have h := Option.some.inj hv
        obtain ⟨h1, h2⟩ := Prod.mk.injEq .. ▸ h
        obtain ⟨h3, h4⟩ := Prod.mk.injEq .. ▸ h2
        subst h3
        subst h4
        exact hc
      · simp only [if_neg hc] at hv
        exact absurd hv (by simp)

set_option maxRecDepth 1000000

/-! ### C3: month validation -/

/-- C3 (counterexample): the DATE_PATS cascade of ocr_fast returns the
date match "10:35 - 20/13/2025" whose month component is 13 ∉ [1,12]
(the strict extractor of server.py rejects the same text), so not every
date match produced by the datetime extraction cascade has its month in
[1,12]. -/
theorem date_cascade_month13_cex :
    (momoExtract (["10:35 - 20/13/2025"])).datetime_text =
      some ("10:35 - 20/13/2025") ∧
    extract_strict_slash_date_from_text ("10:35 - 20/13/2025") = none := by
  constructor
  · decide
  · decide

/-- C3 (amended): only server.py's strict slash extractor validates the
month: every date it accepts has month ∈ [1,12]; the ocr_fast DATE_PATS
cascade performs no month validation and returns candidate tokens with
month outside [1,12] (such as month 13) instead of falling through. -/
theorem strict_date_month_validated :
    (∀ (text tok : String) (m y : Nat),
      extract_strict_slash_date_from_text text = some (tok, m, y) →
        1 ≤ m ∧ m ≤ 12) ∧
    (momoExtract (["10:35 - 20/13/2025"])).datetime_text =
      some ("10:35 - 20/13/2025") := by
  constructor
  · intro text tok m y hv
    exact ⟨(strict_slash_ranges hv).1, (strict_slash_ranges hv).2.1⟩
  · decide

/-- Witness for `strict_date_month_validated` at a concrete accepted
date. -/
theorem strict_date_month_validated_witness : 1 ≤ 2 ∧ 2 ≤ 12 :=
  strict_date_month_validated.1 ("01/02/2025") ("01/02/2025") 2 2025 (by decide)

/-! ### C9: year window -/

/-- C9: the strict date extractor returns a match only when the year is
between 2000 and 2100 inclusive; a token with a valid month but year
outside the window (12/05/1999) is rejected and the function returns
null. -/
theorem strict_date_year_window :
    (∀ (text tok : String) (m y : Nat),
      extract_strict_slash_date_from_text text = some (tok, m, y) →
        2000 ≤ y ∧ y ≤ 2100) ∧
    extract_strict_slash_date_from_text ("12/05/1999") = none := by
  constructor
  · intro text tok m y hv
    exact ⟨(strict_slash_ranges hv).2.2.1, (strict_slash_ranges hv).2.2.2⟩
  · decide

/-- Witness for `strict_date_year_window` at a concrete accepted date. -/
theorem strict_date_year_window_witness : 2000 ≤ 2025 ∧ 2025 ≤ 2100 :=
  strict_date_year_window.1 ("01/02/2025") ("01/02/2025") 2 2025 (by decide)

/-! ### C4: split time and date lines -/

/-- C4 (counterexample): on the two bare lines "22:25" and "22/09/2025"
the extraction does not return the synthesized "22:25-22/09/2025". -/
theorem split_lines_datetime_cex :
    (momoExtract (["22:25", "22/09/2025"])).datetime_text ≠
      some ("22:25-22/09/2025") := by
  decide

/-- C4 (amended): there is no nearest-pairing fallback; the bare
time-then-date pattern of DATE_PATS is searched over the newline-joined
text, its whitespace class matches the newline between the two lines, and
the raw matched substring "22:25\n22/09/2025" (time, newline, date) is
returned unchanged. -/
theorem split_lines_datetime_newline_join :
    (momoExtract (["22:25", "22/09/2025"])).datetime_text =
      some ("22:25\n22/09/2025") := by
  decide

/-! ### C8: amount extraction examples -/

/-- C8: extraction on "Số tiền: 1.200.000đ" yields raw amount
"1.200.000đ" and value 1200000; extraction on the accentless, colonless
"SO TIEN 1.200.000 VND" also yields value 1200000 (there via the bare
currency-suffixed pattern). -/
theorem amount_label_extraction_examples :
    (momoExtract (["Số tiền: 1.200.000đ"])).amount_text =
      some ("1.200.000đ") ∧
    (momoExtract (["Số tiền: 1.200.000đ"])).amount_val = some (1200000) ∧
    (momoExtract (["SO TIEN 1.200.000 VND"])).amount_val = some (1200000) := by
  refine ⟨by decide, by decide, by decide⟩

/-! ### ocr_model.py: parse_fields -/

/-- `re.sub(r"[ \t]+", " ", ...)`: collapse runs of spaces/tabs to one
space (state = inside a run). -/
def collapseSpTabAux : Bool → List Char → List Char
  | _, [] => []
  | inRun, c :: rest =>
    if c == ' ' || c == '\t' then
      if inRun then collapseSpTabAux true rest
      else ' ' :: collapseSpTabAux true rest
    else c :: collapseSpTabAux false rest

def collapseSpTab (l : List Char) : List Char := collapseSpTabAux false l

/-- `[0-9\- ]`. -/
def accDigit (c : Char) : Bool := c.isDigit || c == '-' || c == ' '

/-- `[A-Za-zÀ-ỹ\s\.\-]` (the accented range is the codepoint interval
U+00C0 to U+1EF9, exactly as Python reads the class). -/
def vnNameCls (c : Char) : Bool :=
  (65 ≤ c.toNat && c.toNat ≤ 90) || (97 ≤ c.toNat && c.toNat ≤ 122) ||
  (192 ≤ c.toNat && c.toNat ≤ 7929) || isWs c || c == '.' || c == '-'

/-- `[A-Z\s\.\-]` before the IGNORECASE closure. -/
def upNameCls (c : Char) : Bool :=
  (65 ≤ c.toNat && c.toNat ≤ 90) || isWs c || c == '.' || c == '-'

/-- `[A-ZÀ-Ỵ\s\.\-]` (U+00C0 to U+1EF4) before the IGNORECASE closure. -/
def accUpNameCls (c : Char) : Bool :=
  (65 ≤ c.toNat && c.toNat ≤ 90) || (192 ≤ c.toNat && c.toNat ≤ 7924) ||
  isWs c || c == '.' || c == '-'

/-- A character class under `re.IGNORECASE`: a character matches if
itself, its lowercase or its uppercase form is in the class. -/
def clsI (f : Char → Bool) : RE :=
  RE.cls (fun c => f c || f (pyLowerChar c) || f (pyUpperChar c))

/-- `[^\n]`. -/
def notNl (c : Char) : Bool := !(c == '\n')

/-- `[0-9\/\-\:\s]`. -/
def dtCls (c : Char) : Bool :=
  c.isDigit || c == '/' || c == '-' || c == ':' || isWs c

/-- `[A-Za-z0-9\-]`. -/
def txCodeChar (c : Char) : Bool := alnumA c || c == '-'

/-- The amount patterns of `ocr_model.parse_fields` (all searched with
`re.IGNORECASE | re.MULTILINE`). -/
def amtPats : List Pat :=
  [⟨seqL [litI ("Số tiền"), RE.star (RE.cls colonWs)],
    seqL [rePlus (RE.cls amtCls), RE.opt vndAlt], RE.eps⟩,
   ⟨seqL [litI ("Amount"), RE.star (RE.cls colonWs)],
    seqL [rePlus (RE.cls amtCls), RE.opt vndAlt], RE.eps⟩,
   ⟨seqL [alts [seqL [litI ("SO"), reWsStar, litI ("TIEN")], litI ("AMOUNT")],
      RE.star (RE.cls colonWs)],
    seqL [rePlus (RE.cls amtCls), RE.opt vndAlt], RE.eps⟩,
   ⟨RE.eps, seqL [digitC, reAtLeast (RE.cls amtCls) 3, litI ("VND")], RE.eps⟩,
   ⟨RE.eps,
    seqL [digitC, reAtLeast (RE.cls amtCls) 3, RE.opt (RE.cls isWs),
      alts [litI ("VNĐ"), litI ("Đ"), litI ("D")]], RE.eps⟩]

/-- `[:\s]*` after a label. -/
def lblSep : RE := RE.star (RE.cls colonWs)

/-- The receiving-account patterns. -/
def accToPats : List Pat :=
  [⟨seqL [alts [litI ("STK"),
      seqL [litI ("Số"), reWsStar, litI ("tài"), reWsStar, litI ("khoản")],
      seqL [litI ("Account"), reWsStar, litI ("No"), RE.opt (chE '.')]], lblSep],
    reAtLeast (RE.cls accDigit) 6, RE.eps⟩,
   ⟨seqL [alts [seqL [litI ("Tài"), reWsStar, litI ("khoản"), reWsStar,
        litI ("nhận")],
      seqL [litI ("ACC"), reWsStar, litI ("TO")]], lblSep],
    reAtLeast (RE.cls accDigit) 6, RE.eps⟩,
   ⟨seqL [litI ("Account"), reWsStar, litI ("to"), lblSep],
    reAtLeast (RE.cls accDigit) 6, RE.eps⟩]

/-- The receiver-name patterns. -/
def nameToPats : List Pat :=
  [⟨seqL [alts [seqL [litI ("Tên"), reWsStar, litI ("người"), reWsStar,
        litI ("nhận")],
      seqL [litI ("Người"), reWsStar, litI ("nhận")],
      seqL [litI ("Beneficiary"), reWsStar, litI ("Name")]], lblSep],
    reAtLeast (clsI vnNameCls) 3, RE.eps⟩,
   ⟨seqL [alts [seqL [litI ("CHU"), reWsStar, litI ("TK"), reWsStar,
        litI ("NHAN")],
      seqL [litI ("TO"), reWsStar, litI ("NAME")]], lblSep],
    reAtLeast (clsI upNameCls) 3, RE.eps⟩]

/-- The sender-name patterns. -/
def nameFromPats : List Pat :=
  [⟨seqL [alts [seqL [litI ("Người"), reWsStar, litI ("gửi")],
      seqL [litI ("Tên"), reWsStar, litI ("người"), reWsStar, litI ("gửi")],
      seqL [litI ("Chủ"), reWsStar, litI ("tài"), reWsStar, litI ("khoản"),
        reWsStar, litI ("gửi")],
      litI ("Sender"), litI ("Payer"),
      seqL [litI ("From"), reWsStar, litI ("Name")]], lblSep],
    reAtLeast (clsI vnNameCls) 3, RE.eps⟩,
   ⟨seqL [alts [seqL [litI ("NGUOI"), reWsStar, litI ("CHUYEN")],
      seqL [litI ("NGUOI"), reWsStar, litI ("GUI")],
      seqL [litI ("FROM"), reWsStar, litI ("NAME")]], lblSep],
    reAtLeast (clsI upNameCls) 3, RE.eps⟩]

/-- The sender-name fallback pattern, searched with `re.I` over the
accent-stripped uppercase text. -/
def nameFromFallbackPat : Pat :=
  ⟨seqL [alts [litI ("FROM"),
      seqL [litI ("NGUOI"), reWsStar, litI ("CHUYEN")], litI ("PAYER")], lblSep],
   reAtLeast (clsI accUpNameCls) 3, RE.eps⟩

/-- The sending-account patterns. -/
def accFromPats : List Pat :=
  [⟨seqL [alts [seqL [litI ("STK"), reWsStar, litI ("nguồn")],
      seqL [litI ("Tài"), reWsStar, litI ("khoản"), reWsStar, litI ("gửi")],
      seqL [litI ("From"), reWsStar, litI ("Account")],
      seqL [litI ("Account"), reWsStar, litI ("from")]], lblSep],
    reAtLeast (RE.cls accDigit) 6, RE.eps⟩,
   ⟨seqL [alts [seqL [litI ("SO"), reWsStar, litI ("TK"), reWsStar,
        litI ("GUI")],
      seqL [litI ("ACC"), reWsStar, litI ("FROM")]], lblSep],
    reAtLeast (RE.cls accDigit) 6, RE.eps⟩]

/-- The memo pattern. -/
def memoPats : List Pat :=
  [⟨seqL [alts [seqL [litI ("Nội"), reWsStar, litI ("dung")],
      seqL [litI ("Ghi"), reWsStar, litI ("chú")],
      litI ("Content"), litI ("Description"),
      seqL [litI ("ND"), reWsStar, litI ("chuyển")],
      seqL [litI ("NOI"), reWsStar, litI ("DUNG")]], lblSep],
    rePlus (RE.cls notNl), RE.eps⟩]

/-- The datetime patterns of `parse_fields`. -/
def whenPats : List Pat :=
  [⟨seqL [alts [seqL [litI ("Thời"), reWsStar, litI ("gian")],
      seqL [litI ("Ngày"), reWsStar, litI ("giao"), reWsStar, litI ("dịch")],
      litI ("Time"), litI ("Date")], lblSep],
    reRange (RE.cls dtCls) 8 20, RE.eps⟩,
   ⟨seqL [alts [litI ("NGAY"), litI ("TIME"), litI ("DATE")], lblSep],
    reRange (RE.cls dtCls) 8 20, RE.eps⟩,
   ⟨RE.eps,
    seqL [reRange digitC 1 2, chE '/', reRange digitC 1 2, chE '/',
      reRange digitC 2 4, rePlus (RE.cls isWs), reRange digitC 1 2, chE ':',
      reN digitC 2], RE.eps⟩,
   ⟨RE.eps,
    seqL [reN digitC 4, chE '-', reRange digitC 1 2, chE '-',
      reRange digitC 1 2, rePlus (RE.cls isWs), reRange digitC 1 2, chE ':',
      reN digitC 2], RE.eps⟩]

/-- The transaction-code pattern. -/
def txPats : List Pat :=
  [⟨seqL [alts [seqL [litI ("Mã"), reWsStar, litI ("giao"), reWsStar,
        litI ("dịch")],
      seqL [litI ("Transaction"), reWsStar, litI ("ID")],
      seqL [litI ("Ref"), RE.opt (litI ("erence"))]], lblSep],
    reAtLeast (RE.cls txCodeChar) 6, RE.eps⟩]

/-- Embedding of `ocr_model._pick_first` (every source pattern has a
group, so the result is `(m.group(1) or m.group(0)).strip()`). -/
def _pick_first (pats : List Pat) (text : String) : Option String :=
  match pats with
  | [] => none
  | p :: ps =>
    match searchP p text.data with
    | some (g0, g1) => some (pyStrip (String.mk (if g1 = [] then g0 else g1)))
    | none => _pick_first ps text

/-- End-of-token word boundary for the fallback money pattern. -/
def moneyBoundary (lastc : Char) (next : Option Char) : Bool :=
  match next with
  | none => isWordCh lastc
  | some d => isWordCh lastc != isWordCh d

/-- Greedy `{4,}` tail with backtracking on the repetition count: the
longest body of class characters after the leading digit whose end sits
on a word boundary, at least 4 long.  Returns the token and the number of
characters consumed after the leading digit. -/
def moneyTail (c : Char) (rest : List Char) : Nat → Option (List Char × Nat)
  | 0 => none
  | k + 1 =>
    if k + 1 < 4 then none
    else
      let body := rest.take (k + 1)
      let lastc := body.getLastD c
      let next := (rest.drop (k + 1)).head?
      if moneyBoundary lastc next then some (c :: body, k + 1)
      else moneyTail c rest k

/-- One attempt of `\b\d[\d\.\, ]{4,}\b` at the current position. -/
def moneyAt (prev : Option Char) (c : Char) (rest : List Char) :
    Option (List Char × Nat) :=
  let okStart := match prev with | none => true | some p => !(isWordCh p)
  if okStart && c.isDigit then moneyTail c rest (rest.takeWhile amtCls).length
  else none

/-- `re.findall(r"\b\d[\d\.\, ]{4,}\b", text)`: all non-overlapping
matches, scanning left to right. -/
def findMoneyF : Nat → Option Char → List Char → List (List Char)
  | 0, _, _ => []
  | _, _, [] => []
  | fuel + 1, prev, c :: rest =>
    match moneyAt prev c rest with
    | some (tok, consumed) =>
      tok :: findMoneyF fuel (some (tok.getLastD c)) (rest.drop consumed)
    | none => findMoneyF fuel (some c) rest

def findMoney (l : List Char) : List (List Char) := findMoneyF l.length none l

/-- Embedding of `ocr_model._largest_number_as_amount`: the largest
(truthy) parsed value of the boundary-delimited digit-group tokens, else
`None`. -/
def _largest_number_as_amount (text : String) : Option Int :=
  let best := (findMoney text.data).foldl
    (fun b t =>
      match _vn_to_int_amount (String.mk t) with
      | some v => if v ≠ 0 ∧ b < v then v else b
      | none => b) 0
  if best = 0 then none else some best

/-- The record assembled by `ocr_model.parse_fields`. -/
structure ParsedFields where
  raw_text : String
  amount_text : Option String
  amount : Option Int
  sender_name : Option String
  sender_account : Option String
  receiver_name : Option String
  account_number : Option String
  memo : Option String
  datetime_text : Option String
  tx_code : Option String
deriving DecidableEq

/-- Strip spaces and dashes from a matched account string
(`.replace(" ", "").replace("-", "")`). -/
def accountClean (v : String) : String :=
  String.mk (replaceStr ['-'] [] (replaceStr [' '] [] v.data))

/-- Embedding of `ocr_model.parse_fields`.  Python truthiness of an
optional string (`if x:` with x either None or possibly "") appears as
explicit emptiness tests. -/
def parse_fields (full_text : String) : ParsedFields :=
  let text : String := String.mk (collapseSpTab full_text.data)
  let tnu : String := String.mk (text.data.map noaccentUpperChar)
  let amt := _pick_first amtPats text
  let amtInt0 : Option Int :=
    match amt with
    | none => none
    | some t => if t = "" then none else _vn_to_int_amount t
  let amtInt : Option Int :=
    match amtInt0 with
    | none => _largest_number_as_amount text
    | some v => some v
  let accTo := _pick_first accToPats text
  let nameTo := _pick_first nameToPats text
  let nameFrom0 := _pick_first nameFromPats text
  let nameFrom : Option String :=
    if (match nameFrom0 with | none => true | some v => v = "") then
      match searchP nameFromFallbackPat tnu.data with
      | some (_, g1) => some (pyStrip (String.mk g1))
      | none => nameFrom0
    else nameFrom0
  let accFrom := _pick_first accFromPats text
  let memo := _pick_first memoPats text
  let whenT := _pick_first whenPats text
  let tx := _pick_first txPats text
  { raw_text := full_text
    amount_text := amt
    amount := amtInt
    sender_name :=
      match nameFrom with
      | none => none
      | some v => if v = "" then none else some (pyStrip v)
    sender_account :=
      match accFrom with
      | none => none
      | some v => if v = "" then none else some (accountClean v)
    receiver_name :=
      match nameTo with
      | none => none
      | some v => if v = "" then none else some (pyStrip v)
    account_number :=
      match accTo with
      | none => none
      | some v => if v = "" then none else some (accountClean v)
    memo :=
      match memo with
      | none => none
      | some v => if v = "" then none else some (pyStrip v)
    datetime_text := whenT
    tx_code := tx }

/-! ### C1: totality and the empty input -/

/-- C1: the extraction functions are total Lean functions (they never
raise); the assembled record is well-formed (its amount value is exactly
the normalisation of its raw amount text); and on the empty line list
every extracted field of both records is null. -/
theorem extract_total_and_empty_null :
    (∀ (lines : List String) (full : String),
      (_momo_parse lines full).amount_val =
        Option.bind ((_momo_parse lines full).amount_text) _vn_amount_to_int) ∧
    momoExtract ([]) = ⟨none, none, none, none, none, none⟩ ∧
    parse_fields ("") = ⟨"", none, none, none, none, none, none, none, none, none⟩ := by
  refine ⟨?_, by decide, by decide⟩
  intro lines full
  show (match _find_first AMOUNT_PATS full with
      | none => none
      | some t => if t = "" then none else _vn_amount_to_int t)
    = Option.bind (_find_first AMOUNT_PATS full) _vn_amount_to_int
  cases h : _find_first AMOUNT_PATS full with
  | none => rfl
  | some t =>
    simp only [Option.bind]
    by_cases ht : t = ""
    · subst ht
      rw [if_pos rfl]
      decide
    · rw [if_neg ht]

/-! ### C10: the fallback largest-number amount -/

/-- The parsed values of the fallback money tokens of a text. -/
def moneyValues (text : String) : List Int :=
  (findMoney text.data).filterMap (fun t => _vn_to_int_amount (String.mk t))

/-- The step function of the best-value fold in
`_largest_number_as_amount` (`if v and v > best: best = v`). -/
def gMax (b v : Int) : Int := if v ≠ 0 ∧ b < v then v else b

theorem fold_tokens_eq (b : Int) (toks : List (List Char)) :
    toks.foldl
      (fun b t =>
        match _vn_to_int_amount (String.mk t) with
        | some v => if v ≠ 0 ∧ b < v then v else b
        | none => b) b
    = (toks.filterMap (fun t => _vn_to_int_amount (String.mk t))).foldl gMax b := by
  induction toks generalizing b with
  | nil => rfl
  | cons t ts ih =>
    simp only [List.foldl_cons, List.filterMap_cons]
    cases h : _vn_to_int_amount (String.mk t) with
    | none =>
      simp only [h]
      exact ih b
    | some v =>
      simp only [h, List.foldl_cons]
      exact ih _

theorem gMax_ge_left (b v : Int) : b ≤ gMax b v := by
  unfold gMax
  split
  · omega
  · exact le_refl b

theorem gfold_ge (vs : List Int) : ∀ b : Int, b ≤ vs.foldl gMax b := by
  induction vs with
  | nil => intro b; exact le_refl b
  | cons v vs ih =>
    intro b
    simp only [List.foldl_cons]
    exact le_trans (gMax_ge_left b v) (ih (gMax b v))

theorem gfold_mem (vs : List Int) : ∀ b : Int,
    vs.foldl gMax b = b ∨ vs.foldl gMax b ∈ vs := by
  induction vs with
  | nil => intro b; exact Or.inl rfl
  | cons v vs ih =>
    intro b
    simp only [List.foldl_cons]
    rcases ih (gMax b v) with h | h
    · rw [h]
      unfold gMax
      split
      · exact Or.inr (List.mem_cons_self _ _)
      · exact Or.inl rfl
    · exact Or.inr (List.mem_cons_of_mem _ h)

theorem gfold_ub (vs : List Int) : ∀ b : Int, 0 ≤ b →
    (∀ v ∈ vs, 0 ≤ v) → ∀ v ∈ vs, v ≤ vs.foldl gMax b := by
  induction vs with
  | nil => intro b _ _ v hv; exact absurd hv (List.not_mem_nil v)
  | cons w vs ih =>
    intro b hb hvs v hv
    simp only [List.foldl_cons]
    have hb' : 0 ≤ gMax b w := by
      unfold gMax
      split
      · exact le_trans hb (le_of_lt (by omega))
      · exact hb
    rcases List.mem_cons.mp hv with rfl | hmem
    · have : v ≤ gMax b v := by
        unfold gMax
        split
        · exact le_refl v
        · have h0 := hvs v (List.mem_cons_self _ _)
          omega
      exact le_trans this (gfold_ge vs (gMax b v))
    · exact ih (gMax b w) hb' (fun u hu => hvs u (List.mem_cons_of_mem _ hu)) v hmem

theorem gfold_zero (vs : List Int) (hvs : ∀ v ∈ vs, 0 ≤ v) :
    vs.foldl gMax 0 = 0 ↔ ∀ v ∈ vs, v ≤ 0 := by
  constructor
  · intro h v hv
    have := gfold_ub vs 0 (le_refl 0) hvs v hv
    omega
  · intro h
    induction vs with
    | nil => rfl
    | cons v vs ih =>
      simp only [List.foldl_cons]
      have hv0 : v = 0 := by
        have h1 := h v (List.mem_cons_self _ _)
        have h2 := hvs v (List.mem_cons_self _ _)
        omega
      have : gMax 0 v = 0 := by
        unfold gMax
        rw [if_neg]
        simp [hv0]
      rw [this]
      exact ih (fun u hu => hvs u (List.mem_cons_of_mem _ hu))
        (fun u hu => h u (List.mem_cons_of_mem _ hu))

theorem vn_model_nonneg {s : String} {v : Int}
    (h : _vn_to_int_amount s = some v) : 0 ≤ v := by
  rw [_vn_to_int_amount_eq] at h
  by_cases hd : digitsOf s.data = []
  · rw [if_pos hd] at h
    exact absurd h (by simp)
  · rw [if_neg hd] at h
    have := Option.some.inj h
    rw [← this]
    exact Int.ofNat_nonneg _

theorem moneyValues_nonneg (text : String) : ∀ v ∈ moneyValues text, 0 ≤ v := by
  intro v hv
  obtain ⟨t, _, ht⟩ := List.mem_filterMap.mp hv
  exact vn_model_nonneg ht

/-- Full characterisation of `_largest_number_as_amount`: a returned
value is a positive member of the candidate values dominating all of
them; the result is null exactly when every candidate value is 0 (in
particular when there is no candidate). -/
theorem largest_spec (text : String) :
    (∀ v : Int, _largest_number_as_amount text = some v →
      0 < v ∧ v ∈ moneyValues text ∧ ∀ w ∈ moneyValues text, w ≤ v) ∧
    (_largest_number_as_amount text = none ↔ ∀ w ∈ moneyValues text, w ≤ 0) := by
  have hval : ∀ v ∈ moneyValues text, 0 ≤ v := moneyValues_nonneg text
  have hfold :
      (findMoney text.data).foldl
        (fun b t =>
          match _vn_to_int_amount (String.mk t) with
          | some v => if v ≠ 0 ∧ b < v then v else b
          | none => b) 0
      = (moneyValues text).foldl gMax 0 := fold_tokens_eq 0 (findMoney text.data)
  constructor
  · intro v hv
    unfold _largest_number_as_amount at hv
    rw [hfold] at hv
    by_cases hz : (moneyValues text).foldl gMax 0 = 0
    · rw [if_pos hz] at hv
      exact absurd hv (by simp)
    · rw [if_neg hz] at hv
      have hveq := Option.some.inj hv
      subst hveq
      have hge := gfold_ge (moneyValues text) 0
      refine ⟨by omega, ?_, gfold_ub (moneyValues text) 0 (le_refl 0) hval⟩
      rcases gfold_mem (moneyValues text) 0 with h | h
      · exact absurd h hz
      · exact h
  · unfold _largest_number_as_amount
    rw [hfold]
    by_cases hz : (moneyValues text).foldl gMax 0 = 0
    · rw [if_pos hz]
      exact Iff.intro (fun _ => (gfold_zero (moneyValues text) hval).mp hz)
        (fun _ => rfl)
    · rw [if_neg hz]
      constructor
      · intro hcontra
        exact absurd hcontra (by simp)
      · intro hall
        exact absurd ((gfold_zero (moneyValues text) hval).mpr hall) hz

/-- C10 (counterexample): the text "ab12345cd" contains the five-digit
group "12345", yet the extracted amount is null: the fallback pattern
requires a word boundary before the leading digit, which a letter-embedded
digit group does not have. -/
theorem largest_number_boundary_cex :
    (parse_fields ("ab12345cd")).amount = none ∧
    isInfixS ("12345") ("ab12345cd") = true := by
  exact ⟨by decide, by decide⟩

/-- C10 (amended): when no amount pattern matches, the amount is the
fallback largest-number result over the whitespace-collapsed text; the
fallback considers only digit groups beginning at a word boundary
(pattern `\b\d[\d\.\, ]{4,}\b`), returns the largest positive parsed
value among them, and is null exactly when every such group parses to 0
(in particular when no such group exists). -/
theorem amount_fallback_largest_boundary :
    (∀ text : String,
      _pick_first amtPats (String.mk (collapseSpTab text.data)) = none →
        (parse_fields text).amount =
          _largest_number_as_amount (String.mk (collapseSpTab text.data))) ∧
    (∀ (text : String) (v : Int),
      _largest_number_as_amount text = some v →
        0 < v ∧ v ∈ moneyValues text ∧ ∀ w ∈ moneyValues text, w ≤ v) ∧
    (∀ text : String,
      _largest_number_as_amount text = none ↔ ∀ w ∈ moneyValues text, w ≤ 0) := by
  refine ⟨?_, fun text => (largest_spec text).1, fun text => (largest_spec text).2⟩
  intro text h
  show (match
      (match _pick_first amtPats (String.mk (collapseSpTab text.data)) with
        | none => none
        | some t => if t = "" then none else _vn_to_int_amount t : Option Int) with
      | none => _largest_number_as_amount (String.mk (collapseSpTab text.data))
      | some v => some v)
    = _largest_number_as_amount (String.mk (collapseSpTab text.data))
  rw [h]

/-- Witness for `amount_fallback_largest_boundary` at the concrete text
"ab 12345 cd". -/
theorem amount_fallback_largest_boundary_witness :
    (parse_fields ("ab 12345 cd")).amount =
      _largest_number_as_amount (String.mk (collapseSpTab (("ab 12345 cd")).data)) ∧
    0 < (12345 : Int) ∧ (12345 : Int) ∈ moneyValues ("ab 12345 cd") := by
  refine ⟨amount_fallback_largest_boundary.1 ("ab 12345 cd") (by decide),
    (amount_fallback_largest_boundary.2.1 ("ab 12345 cd") 12345 (by decide)).1,
    (amount_fallback_largest_boundary.2.1 ("ab 12345 cd") 12345 (by decide)).2.1⟩

/-! ### server.py: name normalisation and identity matching -/

/-- Embedding of `server._strip_accents` (NFD, drop combining marks,
NFC) as the pointwise accent-fold map on the program's alphabet. -/
def _strip_accents (s : String) : String := String.mk (s.data.map foldChar)

/-- `re.sub(r"\s+", " ", ...)`: collapse every whitespace run to a
single space (state = inside a run). -/
def collapseWsAux : Bool → List Char → List Char
  | _, [] => []
  | inRun, c :: rest =>
    if isWs c then
      if inRun then collapseWsAux true rest
      else ' ' :: collapseWsAux true rest
    else c :: collapseWsAux false rest

def collapseWs (l : List Char) : List Char := collapseWsAux false l

/-- Embedding of `server.norm_name`: strip accents, lowercase, strip,
collapse whitespace runs. -/
def norm_name (s : String) : String :=
  String.mk (collapseWs (stripBothL isWs ((_strip_accents s).data.map pyLowerChar)))

/-- Length of a longest common subsequence (dynamic programming row by
row). -/
def lcsRowAux (c : Char) : List Char → List Nat → Nat → Nat → List Nat
  | [], _, _, _ => []
  | _ :: _, [], _, _ => []
  | b :: bs, p :: ps, diag, left =>
    let v := if c == b then diag + 1 else max left p
    v :: lcsRowAux c bs ps p v

def lcsRow (c : Char) (bs : List Char) (prev : List Nat) : List Nat :=
  0 :: lcsRowAux c bs (prev.drop 1) (prev.headD 0) 0

def lcsLen (a b : List Char) : Nat :=
  (a.foldl (fun row c => lcsRow c b row) (List.replicate (b.length + 1) 0)).getLastD 0

/-- Modelled from the spec: rapidfuzz `fuzz.ratio` (an external library
dependency, not part of src/) is the normalised indel similarity
`100 · 2 · LCS(a,b) / (|a| + |b|)`; `ratioGE a b t` decides
`ratio(a,b) ≥ t` by exact rational comparison (two empty strings have
ratio 100). -/
def ratioGE (a b : List Char) (t : Nat) : Bool :=
  if a.length + b.length = 0 then decide (t ≤ 100)
  else decide (t * (a.length + b.length) ≤ 200 * lcsLen a b)

def substringsOf (l : List Char) : List (List Char) :=
  (List.range (l.length + 1)).flatMap (fun i =>
    (List.range (l.length + 1 - i)).map (fun n => (l.drop i).take n))

/-- Modelled from the spec: rapidfuzz `fuzz.partial_ratio` compares the
shorter string against aligned windows of the longer one and takes the
best ratio; it is over-approximated here by maximising over all
contiguous substrings of the longer string, an upper bound of the
library's value (so a `false` result is conclusive). -/
def partialRatioGE (a b : List Char) (t : Nat) : Bool :=
  let sh := if a.length ≤ b.length then a else b
  let lo := if a.length ≤ b.length then b else a
  (substringsOf lo).any (fun w => ratioGE sh w t)

/-- Embedding of `server.names_match`: normalise both names, reject
when either is empty, short-circuit to true on equality or substring
containment, otherwise accept when `partial_ratio ≥ 90` or
`ratio ≥ 85` (the two similarity scores as modelled above). -/
def names_match (a b : String) : Bool :=
  let na := norm_name a
  let nb := norm_name b
  if na = "" ∨ nb = "" then false
  else if na = nb ∨ isInfixS na nb = true ∨ isInfixS nb na = true then true
  else partialRatioGE na.data nb.data 90 || ratioGE na.data nb.data 85

/-! ### C5: names_match on equal normalisations -/

/-- C5: whenever two names have equal non-empty normalisations,
`names_match` returns true (the equality short-circuit); in particular
"Nguyễn Văn A" matches "NGUYEN VAN A", and "Nguyen Van A" does not match
"Tran Thi B". -/
theorem names_match_normalized_equal :
    (∀ a b : String, norm_name a = norm_name b → norm_name a ≠ ("") →
      names_match a b = true) ∧
    names_match ("Nguyễn Văn A") ("NGUYEN VAN A") = true ∧
    names_match ("Nguyen Van A") ("Tran Thi B") = false := by
  refine ⟨?_, by decide, by decide⟩
  intro a b heq hne
  have h1 : ¬(norm_name a = "" ∨ norm_name b = "") := by
    intro h
    rcases h with h | h
    · exact hne h
    · exact hne (heq.trans h)
  unfold names_match
  rw [if_neg h1, if_pos (Or.inl heq)]

/-- Witness for `names_match_normalized_equal` on a concrete pair with
equal normalisations. -/
theorem names_match_normalized_equal_witness :
    names_match ("Nguyễn Văn A") ("nguyen van a") = true :=
  names_match_normalized_equal.1 ("Nguyễn Văn A") ("nguyen van a")
    (by decide) (by decide)

/-! ### C7: formatting round-trip -/

/-- Decimal digits of a natural number, most significant first. -/
def toDigits (n : Nat) : List Nat :=
  if n < 10 then [n] else toDigits (n / 10) ++ [n % 10]
termination_by n
decreasing_by
  exact Nat.div_lt_self (by omega) (by omega)

def digitChar : Nat → Char
  | 0 => '0'
  | 1 => '1'
  | 2 => '2'
  | 3 => '3'
  | 4 => '4'
  | 5 => '5'
  | 6 => '6'
  | 7 => '7'
  | 8 => '8'
  | _ => '9'

/-- Groups of three characters from the front (applied to the reversed
digit string, this groups thousands). -/
def chunks3 : List Char → List (List Char)
  | [] => []
  | a :: t => (a :: t.take 2) :: chunks3 (t.drop 2)
termination_by l => l.length
decreasing_by
  simp only [List.length_drop, List.length_cons]
  omega

def dotJoin : List (List Char) → List Char
  | [] => []
  | [g] => g
  | g :: gs => g ++ '.' :: dotJoin gs

/-- Modelled from the spec: format a non-negative integer in the
Vietnamese convention, '.' as the thousands grouping separator, with the
currency suffix 'đ' appended (the spec's round-trip law formatter; the
repository has no formatter of its own). -/
def formatVN (n : Nat) : String :=
  String.mk ((dotJoin (chunks3 ((toDigits n).map digitChar).reverse)).reverse ++ ['đ'])

theorem toDigits_lt (n : Nat) : ∀ d ∈ toDigits n, d < 10 := by
  induction n using Nat.strong_induction_on with
  | _ n ih =>
    rw [toDigits]
    split
    · intro d hd
      simp only [List.mem_singleton] at hd
      subst hd
      assumption
    · intro d hd
      rcases List.mem_append.mp hd with h | h
      · exact ih (n / 10) (Nat.div_lt_self (by omega) (by omega)) d h
      · simp only [List.mem_singleton] at h
        subst h
        exact Nat.mod_lt _ (by omega)

theorem toDigits_ne_nil (n : Nat) : toDigits n ≠ [] := by
  rw [toDigits]
  split
  · simp
  · simp

theorem ofD_toDigits (n : Nat) :
    (toDigits n).foldl (fun a d => 10 * a + d) 0 = n := by
  have general : ∀ m : Nat, ∀ a : Nat,
      (toDigits m).foldl (fun a d => 10 * a + d) a =
        a * 10 ^ (toDigits m).length + m := by
    intro m
    induction m using Nat.strong_induction_on with
    | _ m ih =>
      intro a
      rw [toDigits]
      split
      · simp only [List.foldl_cons, List.foldl_nil, List.length_singleton]
        ring
      · rename_i h
        rw [List.foldl_append, ih (m / 10) (Nat.div_lt_self (by omega) (by omega)) a]
        simp only [List.foldl_cons, List.foldl_nil, List.length_append,
          List.length_singleton]
        have hm := Nat.div_add_mod m 10
        have : 10 ^ ((toDigits (m / 10)).length + 1) =
            10 ^ (toDigits (m / 10)).length * 10 := pow_succ 10 _
        rw [this]
        ring_nf
        omega
  have := general n 0
  simpa using this

theorem digitChar_isDigit (d : Nat) : (digitChar d).isDigit = true := by
  unfold digitChar
  split <;> decide

theorem digitVal_digitChar {d : Nat} (h : d < 10) : digitVal (digitChar d) = d := by
  interval_cases d <;> decide

theorem natOfDigits_map_digitChar (ds : List Nat) (h : ∀ d ∈ ds, d < 10) :
    natOfDigits (ds.map digitChar) = ds.foldl (fun a d => 10 * a + d) 0 := by
  unfold natOfDigits
  rw [List.foldl_map]
  have general : ∀ (l : List Nat) (a : Nat), (∀ d ∈ l, d < 10) →
      l.foldl (fun a d => 10 * a + digitVal (digitChar d)) a =
        l.foldl (fun a d => 10 * a + d) a := by
    intro l
    induction l with
    | nil => intro a _; rfl
    | cons d l ih =>
      intro a hl
      simp only [List.foldl_cons]
      rw [digitVal_digitChar (hl d (List.mem_cons_self _ _))]
      exact ih _ (fun u hu => hl u (List.mem_cons_of_mem _ hu))
  exact general ds 0 h

theorem filter_dotJoin (gs : List (List Char))
    (h : ∀ g ∈ gs, ∀ c ∈ g, c.isDigit = true) :
    (dotJoin gs).filter Char.isDigit = gs.flatten := by
  induction gs with
  | nil => rfl
  | cons g gs ih =>
    cases gs with
    | nil =>
      show g.filter Char.isDigit = g ++ []
      rw [List.append_nil]
      exact List.filter_eq_self.mpr (h g (List.mem_cons_self _ _))
    | cons g2 gs2 =>
      show (g ++ '.' :: dotJoin (g2 :: gs2)).filter Char.isDigit = _
      rw [List.filter_append, List.filter_cons_of_neg (by decide),
        List.filter_eq_self.mpr (h g (List.mem_cons_self _ _)),
        ih (fun u hu c hc => h u (List.mem_cons_of_mem _ hu) c hc)]
      rfl

theorem chunks3_flatten : ∀ n l, l.length ≤ n → (chunks3 l).flatten = l := by
  intro n
  induction n with
  | zero =>
    intro l hl
    have : l = [] := List.length_eq_zero.mp (Nat.le_zero.mp hl)
    subst this
    rw [chunks3]
    rfl
  | succ n ih =>
    intro l hl
    cases l with
    | nil =>
      rw [chunks3]
      rfl
    | cons a t =>
      rw [chunks3]
      show (a :: t.take 2) ++ (chunks3 (t.drop 2)).flatten = a :: t
      rw [ih (t.drop 2) (by simp only [List.length_drop]; simp only [List.length_cons] at hl; omega)]
      simp [List.take_append_drop]

/-- C7: formatting any non-negative integer with '.' thousands grouping
and the suffix 'đ', then normalising, recovers exactly that integer. -/
theorem amount_format_roundtrip (n : Nat) :
    _vn_amount_to_int (formatVN n) = some (Int.ofNat n) := by
  rw [_vn_amount_to_int_eq]
  have hall : ∀ c ∈ ((toDigits n).map digitChar).reverse, c.isDigit = true := by
    intro c hc
    rw [List.mem_reverse] at hc
    obtain ⟨d, _, rfl⟩ := List.mem_map.mp hc
    exact digitChar_isDigit d
  have hchunks : ∀ g ∈ chunks3 ((toDigits n).map digitChar).reverse,
      ∀ c ∈ g, c.isDigit = true := by
    intro g hg c hc
    refine hall c ?_
    rw [← chunks3_flatten (((toDigits n).map digitChar).reverse.length)
      ((toDigits n).map digitChar).reverse (le_refl _)]
    exact List.mem_flatten.mpr ⟨g, hg, hc⟩
  have hds : digitsOf (formatVN n).data = (toDigits n).map digitChar := by
    show ((dotJoin (chunks3 ((toDigits n).map digitChar).reverse)).reverse
        ++ ['đ']).filter Char.isDigit = _
    rw [List.filter_append, List.filter_reverse, filter_dotJoin _ hchunks,
      chunks3_flatten (((toDigits n).map digitChar).reverse.length) _ (le_refl _),
      List.reverse_reverse]
    show _ ++ List.filter Char.isDigit ['đ'] = _
    rw [show List.filter Char.isDigit ['đ'] = [] from by decide, List.append_nil]
  rw [hds]
  have hne : (toDigits n).map digitChar ≠ [] := by
    intro h
    exact toDigits_ne_nil n (List.map_eq_nil_iff.mp h)
  rw [if_neg hne, natOfDigits_map_digitChar _ (toDigits_lt n), ofD_toDigits]

/-! ### C6: idempotence of name normalisation -/

/-- The per-character action of `norm_name` (accent fold then
lowercase). -/
def normChar (c : Char) : Char := pyLowerChar (foldChar c)

theorem tmap_none {t : List (Char × Char)} {c : Char}
    (h : lookupC t c = none) : tmap t c = c := by
  unfold tmap
  rw [h]

theorem tmap_some {t : List (Char × Char)} {c v : Char}
    (h : lookupC t c = some v) : tmap t c = v := by
  unfold tmap
  rw [h]

theorem lowerPairs_lower_fix : ∀ p ∈ lowerPairs, lookupC lowerPairs p.2 = none := by
  decide

theorem foldPairs_value_fix :
    ∀ p ∈ foldPairs, lookupC foldPairs (pyLowerChar p.2) = none := by
  decide

theorem lowerPairs_fold :
    ∀ p ∈ lowerPairs,
      (lookupC foldPairs p.1).isSome = true ∨ lookupC foldPairs p.2 = none := by
  decide

theorem pyLowerChar_idem (x : Char) :
    pyLowerChar (pyLowerChar x) = pyLowerChar x := by
  cases hl : lookupC lowerPairs x with
  | none =>
    have h1 : pyLowerChar x = x := tmap_none hl
    rw [h1]
    exact h1
  | some v =>
    have h1 : pyLowerChar x = v := tmap_some hl
    have h2 : lookupC lowerPairs v = none := lowerPairs_lower_fix _ (lookupC_mem hl)
    have h3 : pyLowerChar v = v := tmap_none h2
    rw [h1, h3]

theorem fold_lower_fold_fix (c : Char) :
    lookupC foldPairs (pyLowerChar (foldChar c)) = none := by
  cases hf : lookupC foldPairs c with
  | some v =>
    have h1 : foldChar c = v := tmap_some hf
    rw [h1]
    exact foldPairs_value_fix _ (lookupC_mem hf)
  | none =>
    have h1 : foldChar c = c := tmap_none hf
    rw [h1]
    cases hl : lookupC lowerPairs c with
    | none =>
      rw [show pyLowerChar c = c from tmap_none hl]
      exact hf
    | some v =>
      rw [show pyLowerChar c = v from tmap_some hl]
      rcases lowerPairs_fold _ (lookupC_mem hl) with h | h
      · rw [hf] at h
        exact absurd h (by decide)
      · exact h

theorem normChar_idem (c : Char) : normChar (normChar c) = normChar c := by
  unfold normChar
  have h1 : foldChar (pyLowerChar (foldChar c)) = pyLowerChar (foldChar c) :=
    tmap_none (fold_lower_fold_fix c)
  rw [h1, pyLowerChar_idem]

theorem normChar_space : normChar ' ' = ' ' := by decide

/-! Step equations for the whitespace-collapsing automaton. -/

theorem collapseAux_cons_ws_false {c : Char} {rest : List Char}
    (h : isWs c = true) :
    collapseWsAux false (c :: rest) = ' ' :: collapseWsAux true rest := by
  simp [collapseWsAux, h]

theorem collapseAux_cons_ws_true {c : Char} {rest : List Char}
    (h : isWs c = true) :
    collapseWsAux true (c :: rest) = collapseWsAux true rest := by
  simp [collapseWsAux, h]

theorem collapseAux_cons_nonws (st : Bool) {c : Char} {rest : List Char}
    (h : isWs c = false) :
    collapseWsAux st (c :: rest) = c :: collapseWsAux false rest := by
  cases st <;> simp [collapseWsAux, h]

theorem collapseAux_append_nonws {w : List Char}
    (hw : ∀ c ∈ w, isWs c = false) :
    ∀ y, collapseWsAux false (w ++ y) = w ++ collapseWsAux false y := by
  induction w with
  | nil => intro y; rfl
  | cons c w ih =>
    intro y
    have hc := hw c (List.mem_cons_self _ _)
    rw [List.cons_append, collapseAux_cons_nonws false hc,
      ih (fun u hu => hw u (List.mem_cons_of_mem _ hu)) y, List.cons_append]

theorem collapseAux_true_eq_drop :
    ∀ y : List Char, collapseWsAux true y = collapseWsAux false (y.dropWhile isWs) := by
  intro y
  induction y with
  | nil => rfl
  | cons d y ih =>
    cases hd : isWs d with
    | true =>
      rw [collapseAux_cons_ws_true hd, ih, List.dropWhile_cons, if_pos hd]
    | false =>
      rw [collapseAux_cons_nonws true hd, List.dropWhile_cons, if_neg (by simp [hd]),
        collapseAux_cons_nonws false hd]

theorem dropWhile_eq_self_of {p : Char → Bool} {l : List Char}
    (h : ∀ c ∈ l, p c = false) : l.dropWhile p = l := by
  cases l with
  | nil => rfl
  | cons c t =>
    rw [List.dropWhile_cons, if_neg (by simp [h c (List.mem_cons_self _ _)])]

theorem stripRight_append_ws {w sp : List Char}
    (hw : ∀ c ∈ w, isWs c = false) (hsp : ∀ c ∈ sp, isWs c = true) :
    stripRight isWs (w ++ sp) = w := by
  unfold stripRight
  rw [List.reverse_append, List.dropWhile_append]
  have h1 : sp.reverse.dropWhile isWs = [] :=
    List.dropWhile_eq_nil_iff.mpr (fun x hx => hsp x (List.mem_reverse.mp hx))
  rw [h1]
  simp only [List.isEmpty_nil, if_true]
  rw [dropWhile_eq_self_of (fun c hc => hw c (List.mem_reverse.mp hc)),
    List.reverse_reverse]

theorem stripRight_append_keep {a b : List Char} {d : Char}
    (hd : d ∈ b) (hdw : isWs d = false) :
    stripRight isWs (a ++ b) = a ++ stripRight isWs b := by
  unfold stripRight
  rw [List.reverse_append, List.dropWhile_append]
  have h1 : ¬(b.reverse.dropWhile isWs).isEmpty = true := by
    intro h
    have h2 : b.reverse.dropWhile isWs = [] := by
      cases hx : b.reverse.dropWhile isWs with
      | nil => rfl
      | cons u us => rw [hx] at h; exact absurd h (by simp)
    have := List.dropWhile_eq_nil_iff.mp h2 d (List.mem_reverse.mpr hd)
    rw [hdw] at this
    exact absurd this (by decide)
  rw [if_neg h1, List.reverse_append, List.reverse_reverse]

theorem stripRight_cons_keep {a : Char} {t : List Char} {d : Char}
    (hd : d ∈ t) (hdw : isWs d = false) :
    stripRight isWs (a :: t) = a :: stripRight isWs t := by
  have h := @stripRight_append_keep [a] t d hd hdw
  simpa using h

theorem stripRight_cons_allws {a : Char} {t : List Char} (ha : isWs a = false)
    (hsp : ∀ e ∈ t, isWs e = true) : stripRight isWs (a :: t) = [a] := by
  have h := @stripRight_append_ws [a] t
    (by intro c hc; simp only [List.mem_singleton] at hc; rw [hc]; exact ha) hsp
  simpa using h

theorem dropWhile_stripRight_comm :
    ∀ (x : List Char) {d : Char}, d ∈ x → isWs d = false →
      (stripRight isWs x).dropWhile isWs = stripRight isWs (x.dropWhile isWs) := by
  intro x
  induction x with
  | nil => intro d hd _; exact absurd hd (List.not_mem_nil d)
  | cons a t ih =>
    intro d hd hdw
    cases ha : isWs a with
    | true =>
      have hdt : d ∈ t := by
        rcases List.mem_cons.mp hd with rfl | h
        · rw [ha] at hdw
          exact absurd hdw (by decide)
        · exact h
      rw [stripRight_cons_keep hdt hdw, List.dropWhile_cons, if_pos ha,
        List.dropWhile_cons, if_pos ha]
      exact ih hdt hdw
    | false =>
      by_cases hbt : ∃ e ∈ t, isWs e = false
      · obtain ⟨e, het, hew⟩ := hbt
        rw [stripRight_cons_keep het hew, List.dropWhile_cons,
          if_neg (by simp [ha]), List.dropWhile_cons, if_neg (by simp [ha]),
          stripRight_cons_keep het hew]
      · have hsp : ∀ e ∈ t, isWs e = true := by
          intro e he
          by_contra hcon
          exact hbt ⟨e, he, by cases hx : isWs e with
            | true => exact absurd hx hcon
            | false => rfl⟩
        rw [stripRight_cons_allws ha hsp, List.dropWhile_cons,
          if_neg (by simp [ha]), List.dropWhile_cons, if_neg (by simp [ha]),
          stripRight_cons_allws ha hsp]

/-! The word decomposition underlying strip + collapse. -/

def notWsB (c : Char) : Bool := !(isWs c)

/-- The maximal whitespace-free words of a character list, in order. -/
def wordsOf (l : List Char) : List (List Char) :=
  match h : l.dropWhile isWs with
  | [] => []
  | c :: r => (c :: r.takeWhile notWsB) :: wordsOf (r.dropWhile notWsB)
termination_by l.length
decreasing_by
  have h1 : (l.dropWhile isWs).length ≤ l.length :=
    (List.dropWhile_sublist isWs).length_le
  rw [h] at h1
  simp only [List.length_cons] at h1
  have h2 : (r.dropWhile notWsB).length ≤ r.length :=
    (List.dropWhile_sublist notWsB).length_le
  omega

def joinWords : List (List Char) → List Char
  | [] => []
  | [w] => w
  | w :: ws => w ++ ' ' :: joinWords ws

theorem wordsOf_nil_of {l : List Char} (h : l.dropWhile isWs = []) :
    wordsOf l = [] := by
  unfold wordsOf
  split
  · rfl
  · rename_i c r heq
    rw [h] at heq
    exact absurd heq (by simp)

theorem wordsOf_cons_of {l : List Char} {c : Char} {r : List Char}
    (h : l.dropWhile isWs = c :: r) :
    wordsOf l = (c :: r.takeWhile notWsB) :: wordsOf (r.dropWhile notWsB) := by
  conv_lhs => unfold wordsOf
  split
  · rename_i heq
    rw [h] at heq
    exact absurd heq.symm (by simp)
  · rename_i c' r' heq
    rw [h] at heq
    injection heq with h1 h2
    subst h1
    subst h2
    rfl

theorem dropWhile_head_false {p : Char → Bool} :
    ∀ {l : List Char} {c : Char} {r : List Char},
      l.dropWhile p = c :: r → p c = false := by
  intro l
  induction l with
  | nil => intro c r h; exact absurd h (by simp)
  | cons a t ih =>
    intro c r h
    rw [List.dropWhile_cons] at h
    by_cases hp : p a = true
    · rw [if_pos hp] at h
      exact ih h
    · rw [if_neg hp] at h
      have h1 : a = c := by injection h
      subst h1
      cases hx : p a with
      | false => rfl
      | true => exact absurd hx hp

theorem wordsOf_good : ∀ (n : Nat) (l : List Char), l.length ≤ n →
    ∀ w ∈ wordsOf l, w ≠ [] ∧ ∀ c ∈ w, isWs c = false := by
  intro n
  induction n with
  | zero =>
    intro l hl w hw
    have : l = [] := List.length_eq_zero.mp (Nat.le_zero.mp hl)
    subst this
    rw [wordsOf_nil_of (by simp)] at hw
    exact absurd hw (List.not_mem_nil w)
  | succ n ih =>
    intro l hl w hw
    cases hdl : l.dropWhile isWs with
    | nil =>
      rw [wordsOf_nil_of hdl] at hw
      exact absurd hw (List.not_mem_nil w)
    | cons c r =>
      rw [wordsOf_cons_of hdl] at hw
      have hlen : (c :: r).length ≤ l.length := by
        rw [← hdl]
        exact (List.dropWhile_sublist isWs).length_le
      rcases List.mem_cons.mp hw with rfl | hmem
      · refine ⟨by simp, ?_⟩
        intro x hx
        rcases List.mem_cons.mp hx with rfl | hx
        · exact dropWhile_head_false hdl
        · have := List.mem_takeWhile_imp hx
          simpa [notWsB] using this
      · refine ih (r.dropWhile notWsB) ?_ w hmem
        have h2 : (r.dropWhile notWsB).length ≤ r.length :=
          (List.dropWhile_sublist notWsB).length_le
        simp only [List.length_cons] at hlen hl ⊢
        omega

theorem wordsOf_congr {l₁ l₂ : List Char}
    (h : l₁.dropWhile isWs = l₂.dropWhile isWs) : wordsOf l₁ = wordsOf l₂ := by
  cases hdl : l₂.dropWhile isWs with
  | nil => rw [wordsOf_nil_of (h.trans hdl), wordsOf_nil_of hdl]
  | cons c r => rw [wordsOf_cons_of (h.trans hdl), wordsOf_cons_of hdl]

/-- Stripping then collapsing is exactly joining the words with single
spaces. -/
theorem collapse_strip_eq_words : ∀ (n : Nat) (l : List Char), l.length ≤ n →
    collapseWs (stripBothL isWs l) = joinWords (wordsOf l) := by
  intro n
  induction n with
  | zero =>
    intro l hl
    have : l = [] := List.length_eq_zero.mp (Nat.le_zero.mp hl)
    subst this
    rw [wordsOf_nil_of (by simp)]
    rfl
  | succ n ih =>
    intro l hl
    cases hdl : l.dropWhile isWs with
    | nil =>
      rw [wordsOf_nil_of hdl]
      show collapseWs (stripRight isWs (l.dropWhile isWs)) = joinWords []
      rw [hdl]
      rfl
    | cons c r =>
      have hlen : (c :: r).length ≤ l.length := by
        rw [← hdl]
        exact (List.dropWhile_sublist isWs).length_le
      have hc : isWs c = false := dropWhile_head_false hdl
      have hw : ∀ x ∈ c :: r.takeWhile notWsB, isWs x = false := by
        intro x hx
        rcases List.mem_cons.mp hx with rfl | hx
        · exact hc
        · have := List.mem_takeWhile_imp hx
          simpa [notWsB] using this
      have hsplit : c :: r = (c :: r.takeWhile notWsB) ++ r.dropWhile notWsB := by
        rw [List.cons_append, List.takeWhile_append_dropWhile]
      rw [wordsOf_cons_of hdl]
      show collapseWs (stripRight isWs (l.dropWhile isWs)) = _
      rw [hdl, hsplit]
      cases hrest : (r.dropWhile notWsB).dropWhile isWs with
      | nil =>
        have hrest_ws : ∀ x ∈ r.dropWhile notWsB, isWs x = true :=
          List.dropWhile_eq_nil_iff.mp hrest
        rw [stripRight_append_ws hw hrest_ws, wordsOf_nil_of hrest]
        show collapseWsAux false (c :: r.takeWhile notWsB) =
          joinWords [c :: r.takeWhile notWsB]
        have h2 := collapseAux_append_nonws hw []
        rw [show collapseWsAux false ([] : List Char) = [] from rfl,
          List.append_nil] at h2
        rw [h2]
        rfl
      | cons d r2 =>
        have hd : isWs d = false := dropWhile_head_false hrest
        have hdmem : d ∈ r.dropWhile notWsB := by
          have hmem : d ∈ (r.dropWhile notWsB).dropWhile isWs := by
            rw [hrest]
            exact List.mem_cons_self _ _
          exact (List.dropWhile_sublist isWs).subset hmem
        cases hrc : r.dropWhile notWsB with
        | nil =>
          rw [hrc] at hdmem
          exact absurd hdmem (List.not_mem_nil d)
        | cons e rest' =>
          have he : isWs e = true := by
            have := dropWhile_head_false hrc
            simpa [notWsB] using this
          have hdrest' : d ∈ rest' := by
            rw [hrc] at hdmem
            rcases List.mem_cons.mp hdmem with rfl | h
            · rw [he] at hd
              exact absurd hd (by decide)
            · exact h
          rw [stripRight_append_keep (show d ∈ e :: rest' from
              List.mem_cons_of_mem e hdrest') hd,
            stripRight_cons_keep hdrest' hd]
          show collapseWsAux false _ = _
          rw [collapseAux_append_nonws hw, collapseAux_cons_ws_false he,
            collapseAux_true_eq_drop, dropWhile_stripRight_comm rest' hdrest' hd]
          have hlen2 : rest'.length ≤ n := by
            have h4 : (r.dropWhile notWsB).length ≤ r.length :=
              (List.dropWhile_sublist notWsB).length_le
            rw [hrc] at h4
            simp only [List.length_cons] at h4 hlen hl
            omega
          have heq2 : collapseWsAux false (stripRight isWs (rest'.dropWhile isWs)) =
              joinWords (wordsOf rest') := ih rest' hlen2
          rw [heq2]
          have hcong : wordsOf (e :: rest') = wordsOf rest' := by
            refine wordsOf_congr ?_
            rw [List.dropWhile_cons, if_pos he]
          rw [hcong]
          have hdl' : rest'.dropWhile isWs = d :: r2 := by
            have h5 : (r.dropWhile notWsB).dropWhile isWs = d :: r2 := hrest
            rw [hrc, List.dropWhile_cons, if_pos he] at h5
            exact h5
          rw [wordsOf_cons_of hdl']
          rfl

theorem wordsOf_joinWords : ∀ ws : List (List Char),
    (∀ w ∈ ws, w ≠ [] ∧ ∀ c ∈ w, isWs c = false) →
    wordsOf (joinWords ws) = ws := by
  intro ws
  induction ws with
  | nil =>
    intro _
    exact wordsOf_nil_of (show List.dropWhile isWs (joinWords []) = [] from rfl)
  | cons w ws ih =>
    intro hgood
    obtain ⟨hne, hnw⟩ := hgood w (List.mem_cons_self _ _)
    cases hwc : w with
    | nil => exact absurd hwc hne
    | cons c r =>
      subst hwc
      have hc : isWs c = false := hnw c (List.mem_cons_self _ _)
      have hr : ∀ x ∈ r, isWs x = false :=
        fun x hx => hnw x (List.mem_cons_of_mem _ hx)
      cases ws with
      | nil =>
        show wordsOf (c :: r) = [c :: r]
        have hdl : (c :: r).dropWhile isWs = c :: r := by
          rw [List.dropWhile_cons, if_neg (by simp [hc])]
        rw [wordsOf_cons_of hdl]
        have htake : r.takeWhile notWsB = r :=
          List.takeWhile_eq_self_iff.mpr (fun x hx => by simp [notWsB, hr x hx])
        have hdrop : r.dropWhile notWsB = [] :=
          List.dropWhile_eq_nil_iff.mpr (fun x hx => by simp [notWsB, hr x hx])
        rw [htake, hdrop, wordsOf_nil_of (by simp)]
      | cons w2 ws2 =>
        show wordsOf ((c :: r) ++ ' ' :: joinWords (w2 :: ws2)) = _
        have hdl : ((c :: r) ++ ' ' :: joinWords (w2 :: ws2)).dropWhile isWs =
            c :: (r ++ ' ' :: joinWords (w2 :: ws2)) := by
          rw [List.cons_append, List.dropWhile_cons, if_neg (by simp [hc])]
        rw [wordsOf_cons_of hdl]
        have htake : (r ++ ' ' :: joinWords (w2 :: ws2)).takeWhile notWsB = r := by
          rw [List.takeWhile_append_of_pos (fun x hx => by simp [notWsB, hr x hx]),
            List.takeWhile_cons, if_neg (by decide), List.append_nil]
        have hdrop : (r ++ ' ' :: joinWords (w2 :: ws2)).dropWhile notWsB =
            ' ' :: joinWords (w2 :: ws2) := by
          rw [List.dropWhile_append]
          have h1 : r.dropWhile notWsB = [] :=
            List.dropWhile_eq_nil_iff.mpr (fun x hx => by simp [notWsB, hr x hx])
          rw [h1]
          simp only [List.isEmpty_nil, if_true]
          rw [List.dropWhile_cons, if_neg (by decide)]
        rw [htake, hdrop]
        have hcong : wordsOf (' ' :: joinWords (w2 :: ws2)) =
            wordsOf (joinWords (w2 :: ws2)) := by
          refine wordsOf_congr ?_
          rw [List.dropWhile_cons, if_pos (by decide)]
        rw [hcong, ih (fun u hu => hgood u (List.mem_cons_of_mem _ hu))]

theorem mem_collapseWsAux : ∀ (y : List Char) (st : Bool) (c : Char),
    c ∈ collapseWsAux st y → c = ' ' ∨ c ∈ y := by
  intro y
  induction y with
  | nil =>
    intro st c hc
    rw [show collapseWsAux st [] = [] from by cases st <;> rfl] at hc
    exact absurd hc (List.not_mem_nil c)
  | cons d y ih =>
    intro st c hc
    cases hd : isWs d with
    | true =>
      cases st with
      | true =>
        rw [collapseAux_cons_ws_true hd] at hc
        rcases ih true c hc with h | h
        · exact Or.inl h
        · exact Or.inr (List.mem_cons_of_mem _ h)
      | false =>
        rw [collapseAux_cons_ws_false hd] at hc
        rcases List.mem_cons.mp hc with rfl | hc2
        · exact Or.inl rfl
        · rcases ih true c hc2 with h | h
          · exact Or.inl h
          · exact Or.inr (List.mem_cons_of_mem _ h)
    | false =>
      rw [collapseAux_cons_nonws st hd] at hc
      rcases List.mem_cons.mp hc with rfl | hc2
      · exact Or.inr (List.mem_cons_self _ _)
      · rcases ih false c hc2 with h | h
        · exact Or.inl h
        · exact Or.inr (List.mem_cons_of_mem _ h)

theorem mem_stripBothL {p : Char → Bool} {y : List Char} {c : Char}
    (h : c ∈ stripBothL p y) : c ∈ y := by
  unfold stripBothL stripRight at h
  have h1 := List.mem_reverse.mp h
  have h2 := (List.dropWhile_sublist p).subset h1
  have h3 := List.mem_reverse.mp h2
  exact (List.dropWhile_sublist p).subset h3

theorem map_fix {f : Char → Char} {z : List Char} (h : ∀ c ∈ z, f c = c) :
    z.map f = z := by
  induction z with
  | nil => rfl
  | cons c t ih =>
    rw [List.map_cons, h c (List.mem_cons_self _ _),
      ih (fun u hu => h u (List.mem_cons_of_mem _ hu))]

theorem normL_idem (u : List Char) :
    collapseWs (stripBothL isWs (List.map pyLowerChar (List.map foldChar
      (collapseWs (stripBothL isWs (List.map pyLowerChar (List.map foldChar u)))))))
    = collapseWs (stripBothL isWs (List.map pyLowerChar (List.map foldChar u))) := by
  rw [List.map_map, List.map_map]
  have hfix : (collapseWs (stripBothL isWs
      (List.map (pyLowerChar ∘ foldChar) u))).map (pyLowerChar ∘ foldChar) =
      collapseWs (stripBothL isWs (List.map (pyLowerChar ∘ foldChar) u)) := by
    refine map_fix ?_
    intro c hc
    rcases mem_collapseWsAux (stripBothL isWs (List.map (pyLowerChar ∘ foldChar) u))
        false c hc with h | h
    · subst h
      exact normChar_space
    · have h2 := mem_stripBothL h
      obtain ⟨d, _, rfl⟩ := List.mem_map.mp h2
      exact normChar_idem d
  rw [hfix,
    collapse_strip_eq_words (List.map (pyLowerChar ∘ foldChar) u).length _ (le_refl _),
    collapse_strip_eq_words
      (joinWords (wordsOf (List.map (pyLowerChar ∘ foldChar) u))).length _ (le_refl _),
    wordsOf_joinWords _
      (wordsOf_good (List.map (pyLowerChar ∘ foldChar) u).length _ (le_refl _))]

/-- C6: text normalisation is idempotent:
`norm_name (norm_name s) = norm_name s` for every string. -/
theorem norm_name_idempotent (s : String) :
    norm_name (norm_name s) = norm_name s :=
  congrArg String.mk (normL_idem s.data)
